import Mathlib

/-!
Shallow embedding of the local analysis pipeline of the `google_studio`
repository (aspect-based sentiment analysis over product reviews).

The embedding follows `services/localAnalysis.ts` (the current revision,
whose API matches the current `types.ts`): clause segmentation
(`segmentTextIntoClauses`), keyword aspect matching (`detectAspect`),
sentiment scoring (`analyzeSentiment` with `calibrateSentiment`), the
PMI/document-frequency signal extractor (`extractTopFreqWords`), the
integrity checker (`checkDatasetIntegrity`) and the aggregation pass
(`performLocalAnalysis`).  The superseded revision's `stemmer` is also
embedded, since the specification's normalization section describes it.

Texts are `List Char`.  The external VADER lexicon analyzer
(`SentimentIntensityAnalyzer.polarity_scores`) is a third-party capability;
it is modelled as a parameter `polarity : List Char → Option ℚ`
(`none` models an internal throw, `some c` the returned compound score).
JS floating point arithmetic is modelled by exact arithmetic: rationals
where the source only adds/divides, and real numbers (`Real.logb`) where
the source takes `Math.log2`.
-/

namespace GoogleStudio

/-- ASCII part of the JS whitespace class `\s` (space, tab, LF, VT, FF, CR);
the corpus texts are ASCII. -/
def isWsChar (c : Char) : Bool :=
  c == ' ' || c == '\t' || c == '\n' || c == '\x0b' || c == '\x0c' || c == '\r'

/-- JS regex word character class `\w` = `[A-Za-z0-9_]`, the class that
defines `\b` word boundaries. -/
def isWordChar (c : Char) : Bool :=
  c.isAlpha || c.isDigit || c == '_'

/-- Lower-case letter or digit: the characters kept by the source's
`replace(/[^a-z0-9\s]/g, ' ')` after `toLowerCase()`. -/
def isLowerAlnum (c : Char) : Bool :=
  ('a' ≤ c && c ≤ 'z') || c.isDigit

/-- JS `String.prototype.split` on a regex matching runs of delimiter
characters (e.g. `/[|.!?]+/` or `/\s+/`): fields between maximal delimiter
runs, with (possibly empty) fields at both edges.  The recursion consumes
at least one character per step; `fuel` bounds the number of steps so that
the recursion is structural (callers pass `fuel = l.length`, which is
sufficient, so the fuel-exhaustion arm is never reached). -/
def splitOnRunsGo (p : Char → Bool) : Nat → List Char → List Char → List (List Char)
  | _, [], cur => [cur.reverse]
  | 0, l, cur => [cur.reverse ++ l]
  | fuel + 1, c :: rest, cur =>
    if p c then cur.reverse :: splitOnRunsGo p fuel (rest.dropWhile p) []
    else splitOnRunsGo p fuel rest (c :: cur)

/-- `text.split(regex)` for a run regex. -/
def jsSplit (p : Char → Bool) (l : List Char) : List (List Char) :=
  splitOnRunsGo p l.length l []

/-- JS `String.prototype.trim` (whitespace stripped from both ends). -/
def jsTrim (l : List Char) : List Char :=
  (((l.dropWhile isWsChar).reverse).dropWhile isWsChar).reverse

/-- The contrastive conjunctions of the clause-splitting regexes
`/([,;]\s+)(but|however|although|yet|while)(\s+)/gi`. -/
def contrWords : List (List Char) :=
  ["but".data, "however".data, "although".data, "yet".data, "while".data]

/-- Case-insensitive literal prefix test (the regex alternatives are
lower-case words and the `i` flag lower-cases the subject). -/
def lowerPrefixMatch (w : List Char) (l : List Char) : Bool :=
  (l.take w.length).map Char.toLower == w

/-- Match one alternative of `(but|however|although|yet|while)` at the head
of `l`; returns the matched length.  The five words start with distinct
letters, so at most one alternative matches. -/
def matchContrWord (l : List Char) : Option Nat :=
  contrWords.findSome? (fun w => if lowerPrefixMatch w l then some w.length else none)

/-- Attempt of the pass-1 regex `([,;]\s+)(but|however|although|yet|while)(\s+)`
at the head of `l`; returns the total matched length.  The `\s+` pieces are
greedy, which is unambiguous because the conjunction words contain no
whitespace. -/
def tryMatch1 (l : List Char) : Option Nat :=
  match l with
  | [] => none
  | c :: rest =>
    if c == ',' || c == ';' then
      let s1 := (rest.takeWhile isWsChar).length
      if s1 == 0 then none
      else
        let r1 := rest.drop s1
        match matchContrWord r1 with
        | none => none
        | some wlen =>
          let r2 := r1.drop wlen
          let s2 := (r2.takeWhile isWsChar).length
          if s2 == 0 then none else some (1 + s1 + wlen + s2)
    else none

/-- Attempt of the pass-2 regex `(\s+)(but|however|although|yet|while)(\s+)`
at the head of `l`. -/
def tryMatch2 (l : List Char) : Option Nat :=
  let s1 := (l.takeWhile isWsChar).length
  if s1 == 0 then none
  else
    let r1 := l.drop s1
    match matchContrWord r1 with
    | none => none
    | some wlen =>
      let r2 := r1.drop wlen
      let s2 := (r2.takeWhile isWsChar).length
      if s2 == 0 then none else some (s1 + wlen + s2)

/-- JS `String.prototype.replace` with a global regex: scan left to right,
replace each leftmost non-overlapping match with `" | "`, resume after the
match.  `tm` attempts a match at the current position and returns the
matched length (both matchers below always match at least one character).
`fuel` bounds the number of scan steps so that the recursion is structural;
callers pass `fuel = l.length`, which is sufficient, so the
fuel-exhaustion arm is never reached. -/
def replaceScanGo (tm : List Char → Option Nat) : Nat → List Char → List Char
  | _, [] => []
  | 0, l => l
  | fuel + 1, c :: rest =>
    match tm (c :: rest) with
    | some n => ' ' :: '|' :: ' ' :: replaceScanGo tm fuel ((c :: rest).drop n)
    | none => c :: replaceScanGo tm fuel rest

/-- One global `replace` pass over the whole string. -/
def replaceScan (tm : List Char → Option Nat) (l : List Char) : List Char :=
  replaceScanGo tm l.length l

/-- `segmentTextIntoClauses` from `localAnalysis.ts`: replace contrastive
conjunctions (with and without a preceding comma/semicolon) by `" | "`,
split on runs of `|.!?`, trim, and keep the clauses longer than 2
characters. -/
def segmentTextIntoClauses (text : List Char) : List (List Char) :=
  let processed := replaceScan tryMatch1 text
  let processed2 := replaceScan tryMatch2 processed
  let rawSegments := jsSplit (fun c => c == '|' || c == '.' || c == '!' || c == '?') processed2
  (rawSegments.map jsTrim).filter (fun s => 2 < s.length)

/-- `word.endsWith(suf)`. -/
def endsWith (l suf : List Char) : Bool :=
  List.isPrefixOf suf.reverse l.reverse

/-- `word.slice(0, -n)`. -/
def dropLastN (l : List Char) (n : Nat) : List Char :=
  (l.reverse.drop n).reverse

/-- `singularize` from `localAnalysis.ts`: naive singularization merging
"flavors" → "flavor", "batteries" → "battery". -/
def singularize (w : List Char) : List Char :=
  if w.length ≤ 3 then w
  else if endsWith w "ies".data && 4 < w.length then dropLastN w 3 ++ ['y']
  else if endsWith w "s".data && !endsWith w "ss".data && !endsWith w "us".data then
    dropLastN w 1
  else w

/-- `stemmer` from the superseded revision of the analysis service
(lightweight suffix-stripping stemmer with `ies/es/s/ing/ed/ly` rules). -/
def stemmer (word : List Char) : List Char :=
  let w := word.map Char.toLower
  if w.length < 3 then w
  else if endsWith w "ies".data && 4 < w.length then dropLastN w 3 ++ ['y']
  else if endsWith w "es".data && !endsWith w "aes".data then dropLastN w 2
  else if endsWith w "s".data && !endsWith w "ss".data then dropLastN w 1
  else if endsWith w "ing".data && 5 < w.length then dropLastN w 3
  else if endsWith w "ed".data && 4 < w.length then dropLastN w 2
  else if endsWith w "ly".data && 4 < w.length then dropLastN w 2
  else w

/-- Taxonomy entry (`AspectDefinition` in `types.ts`). -/
structure AspectDefinition where
  name : String
  description : String
  keywords : List (List Char)
deriving DecidableEq

/-- `\w`-membership of the character at index `i`, `false` past the ends
(as for JS word boundaries at the string edges). -/
def wordAt (s : List Char) (i : Nat) : Bool :=
  match s.get? i with
  | some c => isWordChar c
  | none => false

/-- JS `\b` at position `i` of `s`: exactly one of the two surrounding
positions holds a word character. -/
def boundaryAt (s : List Char) (i : Nat) : Bool :=
  (if i == 0 then false else wordAt s (i - 1)) != wordAt s i

/-- The pattern `p` occurs at position `i` of `s` with `\b` boundaries on
both sides. -/
def matchesAt (p s : List Char) (i : Nat) : Bool :=
  ((s.drop i).take p.length == p) && boundaryAt s i && boundaryAt s (i + p.length)

/-- `new RegExp("\\b" + kw + "\\b").test(s)` for a keyword `kw` made of
word characters and spaces (regex-literal, as taxonomy keywords are). -/
def wholeWordMatch (p s : List Char) : Bool :=
  (List.range (s.length + 1)).any (fun i => matchesAt p s i)

/-- The body of the inner keyword loop of `detectAspect`: if the keyword
whole-word-matches the normalized clause and is strictly longer than the
current best trigger, it becomes the new best match. -/
def kwStep (nm : List Char) (aname : String) (b : Option (String × List Char))
    (kw : List Char) : Option (String × List Char) :=
  if wholeWordMatch (kw.map Char.toLower) nm then
    match b with
    | none => some (aname, kw)
    | some prev => if prev.2.length < kw.length then some (aname, kw) else b
  else b

/-- `detectAspect` from `localAnalysis.ts`: scan every keyword of every
aspect against the lower-cased clause with whole-word matching; a strictly
longer matching keyword replaces the current best match. -/
def detectAspect (textSegment : List Char) (taxonomy : List AspectDefinition) :
    Option (String × List Char) :=
  let normalized := textSegment.map Char.toLower
  taxonomy.foldl
    (fun best aspect => aspect.keywords.foldl (kwStep normalized aspect.name) best)
    none

/-- Sentiment labels (`SentimentLabel` in `types.ts`). -/
inductive SentimentLabel where
  | POSITIVE
  | NEGATIVE
  | NEUTRAL
  | MIXED
deriving DecidableEq

/-- Substring containment, JS `hay.includes(needle)`. -/
def containsSub (needle hay : List Char) : Bool :=
  (List.range (hay.length + 1)).any (fun i => (hay.drop i).take needle.length == needle)

/-- The intensifier word list of `calibrateSentiment`. -/
def intensifiers : List (List Char) :=
  ["absolutely".data, "extremely".data, "perfect".data, "worst".data, "terrible".data,
   "amazing".data, "love".data, "hate".data, "best".data, "awful".data]

/-- `calibrateSentiment` from `localAnalysis.ts`: clamp magnitudes above
0.85 unless the text contains an intensifier word. -/
def calibrateSentiment (score : ℚ) (text : List Char) : ℚ :=
  if score = 0 then 0
  else
    let c1 := if 17/20 < score then (17/20 : ℚ) else score
    let c2 := if c1 < -(17/20) then (-(17/20) : ℚ) else c1
    if intensifiers.any (fun i => containsSub i (text.map Char.toLower)) then score
    else c2

/-- `analyzeSentiment` from `localAnalysis.ts`.  `polarity` models the
external VADER `polarity_scores` call returning the compound score;
`polarity text = none` models the call throwing, caught by the source's
`try/catch` which substitutes Neutral/0. -/
def analyzeSentiment (polarity : List Char → Option ℚ) (text : List Char) :
    SentimentLabel × ℚ :=
  match polarity text with
  | none => (SentimentLabel.NEUTRAL, 0)
  | some compound =>
    let score := calibrateSentiment compound text
    if 1/20 ≤ score then (SentimentLabel.POSITIVE, score)
    else if score ≤ -(1/20) then (SentimentLabel.NEGATIVE, score)
    else (SentimentLabel.NEUTRAL, score)

/-- The `STOP_WORDS` set of `localAnalysis.ts`. -/
def STOP_WORDS : List (List Char) :=
  ["i", "me", "my", "myself", "we", "our", "ours", "ourselves", "you", "your", "yours",
   "yourself", "yourselves", "he", "him", "his", "himself", "she", "her", "hers", "herself",
   "it", "its", "itself", "they", "them", "their", "theirs", "themselves", "what", "which",
   "who", "whom", "this", "that", "these", "those", "am", "is", "are", "was", "were", "be",
   "been", "being", "have", "has", "had", "having", "do", "does", "did", "doing", "a", "an",
   "the", "and", "but", "if", "or", "because", "as", "until", "while", "of", "at", "by",
   "for", "with", "about", "against", "between", "into", "through", "during", "before",
   "after", "above", "below", "to", "from", "up", "down", "in", "out", "on", "off", "over",
   "under", "again", "further", "then", "once", "here", "there", "when", "where", "why",
   "how", "all", "any", "both", "each", "few", "more", "most", "other", "some", "such",
   "no", "nor", "not", "only", "own", "same", "so", "than", "too", "very", "s", "t", "can",
   "will", "just", "don", "should", "now"].map String.data

/-- `review.text.toLowerCase().replace(/[^a-z0-9\s]/g, ' ')`. -/
def cleanText (t : List Char) : List Char :=
  (t.map Char.toLower).map (fun c => if isLowerAlnum c || isWsChar c then c else ' ')

/-- `cleanText.split(/\s+/).filter(w => w.length > 2)`. -/
def rawTokens (t : List Char) : List (List Char) :=
  (jsSplit isWsChar (cleanText t)).filter (fun w => 2 < w.length)

/-- The token sequence of one review in `extractTopFreqWords`:
`rawTokens.map(singularize)`. -/
def tokensOf (t : List Char) : List (List Char) :=
  (rawTokens t).map singularize

/-- `ReviewInput` from `types.ts`. -/
structure ReviewInput where
  id : String
  text : List Char
deriving DecidableEq

/-- Total occurrences of token `w` over the corpus (the `wordCounts` map). -/
def unigramCount (reviews : List ReviewInput) (w : List Char) : ℕ :=
  (reviews.map (fun r => (tokensOf r.text).count w)).sum

/-- The `totalWords` accumulator. -/
def totalWords (reviews : List ReviewInput) : ℕ :=
  (reviews.map (fun r => (tokensOf r.text).length)).sum

/-- Adjacent token pairs of one review that survive the stop-word guard
(`if (STOP_WORDS.has(w1) || STOP_WORDS.has(w2)) continue`). -/
def bigramsOf (t : List Char) : List (List Char × List Char) :=
  let ts := tokensOf t
  (ts.zip ts.tail).filter (fun p => !(STOP_WORDS.contains p.1 || STOP_WORDS.contains p.2))

/-- Occurrences of a bigram over the corpus (the `pairCounts` map).  The
source keys the map by the space-joined string `w1 + " " + w2` and splits
it back on the space; tokens contain no whitespace, so keying by the pair
is the same map. -/
def bigramCount (reviews : List ReviewInput) (p : List Char × List Char) : ℕ :=
  (reviews.map (fun r => (bigramsOf r.text).count p)).sum

/-- The `totalPairs` accumulator. -/
def totalPairs (reviews : List ReviewInput) : ℕ :=
  (reviews.map (fun r => (bigramsOf r.text).length)).sum

/-- Document frequency: the size of the `wordDocCounts` id set of `w`
(distinct review ids of the reviews whose token list contains `w`). -/
def docFreq (reviews : List ReviewInput) (w : List Char) : ℕ :=
  ((reviews.filter (fun r => (tokensOf r.text).contains w)).map ReviewInput.id).dedup.length

/-- JS `Set.prototype.add` on an insertion-ordered distinct list. -/
def setAdd {α : Type} [DecidableEq α] (l : List α) (x : α) : List α :=
  if x ∈ l then l else l ++ [x]

/-- Insertion-order key list of a JS `Map` populated by repeated `set`
calls: first occurrences, in order. -/
def dedupFirst {α : Type} [DecidableEq α] (l : List α) : List α :=
  l.foldl setAdd []

/-- Iteration order of the `pairCounts` map. -/
def bigramKeys (reviews : List ReviewInput) : List (List Char × List Char) :=
  dedupFirst ((reviews.map (fun r => bigramsOf r.text)).flatten)

/-- Iteration order of the `wordCounts` map. -/
def unigramKeys (reviews : List ReviewInput) : List (List Char) :=
  dedupFirst ((reviews.map (fun r => tokensOf r.text)).flatten)

/-- `isSentimentWord` from `extractTopFreqWords`: `|compound| > 0.1`, with
the `try/catch` returning `false` on an analyzer throw. -/
def isSentimentWord (polarity : List Char → Option ℚ) (w : List Char) : Bool :=
  match polarity w with
  | some res => decide ((1 : ℚ)/10 < |res|)
  | none => false

/-- One entry of the `scoredPhrases` array.  The float score of the source
is `cnt * log2 base` (for a phrase, `base` is the PMI probability ratio;
for a word, `base = documentFrequency + 1`); the entry stores the exact
rational `base` and the real score is recovered by `wsScore`. -/
structure ScoredEntry where
  word : List Char
  cnt : ℕ
  base : ℚ
  phrase : Bool
deriving DecidableEq

/-- The PMI probability ratio `p_bigram / (p_w1 * p_w2)` of a bigram,
including the source's `(wordCounts.get(w) || 1)` fallback. -/
def bigramRatio (reviews : List ReviewInput) (p : List Char × List Char) : ℚ :=
  let pBigram : ℚ := (bigramCount reviews p : ℚ) / (totalPairs reviews : ℚ)
  let c1 := unigramCount reviews p.1
  let c2 := unigramCount reviews p.2
  let pW1 : ℚ := (((if c1 = 0 then 1 else c1) : ℕ) : ℚ) / (totalWords reviews : ℚ)
  let pW2 : ℚ := (((if c2 = 0 then 1 else c2) : ℕ) : ℚ) / (totalWords reviews : ℚ)
  pBigram / (pW1 * pW2)

/-- Bigram scoring: noise floor `count < 3`, then the PMI gate.  The source
computes `pmi = Math.log2(ratio)` and keeps the bigram when `pmi > 2`;
`log2` is strictly monotone, so the gate is the decidable `ratio > 4`,
with real score `count * log2 ratio` (`wsScore`). -/
def phraseEntries (reviews : List ReviewInput) : List ScoredEntry :=
  (bigramKeys reviews).filterMap (fun p =>
    if bigramCount reviews p < 3 then none
    else if 4 < bigramRatio reviews p then
      some ⟨p.1 ++ ' ' :: p.2, bigramCount reviews p, bigramRatio reviews p, true⟩
    else none)

/-- Unigram scoring: skip stop words, the `count < 3` noise floor and
sentiment words; signal weight `count * log2(df + 1)`, stored as
`base = df + 1`. -/
def wordEntries (polarity : List Char → Option ℚ) (reviews : List ReviewInput) :
    List ScoredEntry :=
  (unigramKeys reviews).filterMap (fun w =>
    if STOP_WORDS.contains w then none
    else if unigramCount reviews w < 3 then none
    else if isSentimentWord polarity w then none
    else some ⟨w, unigramCount reviews w, ((docFreq reviews w : ℚ) + 1), false⟩)

/-- Sort key: every stored `base` is positive, so descending order of the
float score `cnt * log2 base = log2 (base ^ cnt)` is descending order of
the rational `base ^ cnt`. -/
def scoreKey (e : ScoredEntry) : ℚ := e.base ^ e.cnt

/-- Stable insertion of `a` into a list sorted descending by `key`: `a`
goes after every element whose key is at least `key a`. -/
def insertByKeyDesc {α : Type} {β : Type} [LinearOrder β] (key : α → β) (a : α) :
    List α → List α
  | [] => [a]
  | b :: rest => if key a ≤ key b then b :: insertByKeyDesc key a rest else a :: b :: rest

/-- Stable sort, descending by `key`.  JS `Array.prototype.sort` is stable
and a stable sort's output is uniquely determined by the comparator, so
this stable insertion sort is the source's
`sort((a, b) => keyOf(b) - keyOf(a))`. -/
def sortByKeyDesc {α : Type} {β : Type} [LinearOrder β] (key : α → β) (l : List α) : List α :=
  l.foldl (fun acc a => insertByKeyDesc key a acc) []

/-- `extractTopFreqWords` (up to the final display `map`): merge bigram and
unigram candidates, sort descending by score (the source's stable
`sort((a, b) => b.score - a.score)`, realized through the equivalent
rational key `scoreKey`), truncate to `limit`. -/
def extractTopFreqWords (polarity : List Char → Option ℚ) (reviews : List ReviewInput)
    (limit : ℕ) : List ScoredEntry :=
  (sortByKeyDesc scoreKey (phraseEntries reviews ++ wordEntries polarity reviews)).take limit

/-- The float significance score of an entry. -/
noncomputable def wsScore (e : ScoredEntry) : ℝ :=
  (e.cnt : ℝ) * Real.logb 2 (e.base : ℝ)

/-- `WordStat` from `types.ts`. -/
structure WordStat where
  word : List Char
  count : ℤ
  score : ℝ

/-- The final display `map` of `extractTopFreqWords`:
`{ word: p.word, count: Math.round(p.score), score: p.score }`. -/
noncomputable def toWordStat (e : ScoredEntry) : WordStat :=
  ⟨e.word, round (wsScore e), wsScore e⟩

/-- The `WordStat[]` result of `extractTopFreqWords`. -/
noncomputable def extractTopFreqWordStats (polarity : List Char → Option ℚ)
    (reviews : List ReviewInput) (limit : ℕ) : List WordStat :=
  (extractTopFreqWords polarity reviews limit).map toWordStat

/-- Warning string of the repetition rule. -/
def repetitionWarning : String :=
  "High repetition detected: >30% of reviews are identical duplicates."

/-- Warning string of the entropy rule. -/
def entropyWarning : String :=
  "Low signal entropy: Dataset is dominated by just 2-3 keywords. Results may be skewed."

open Classical in
/-- `checkDatasetIntegrity` from `localAnalysis.ts`.  Rule 1: repetition
rate `1 - uniqueTexts.size / reviews.length` above 0.3 (for an empty
corpus the JS rate is `NaN` and `NaN > 0.3` is false, modelled by the
`0 < reviews.length` conjunct).  Rule 2: guarded by `topWords.length > 5`,
warn when the top-3 score mass fraction exceeds 0.6. -/
noncomputable def checkDatasetIntegrity (reviews : List ReviewInput)
    (topWords : List WordStat) : List String :=
  (if 0 < reviews.length ∧
      (3/10 : ℚ) < 1 - (((reviews.map (fun r => jsTrim r.text)).dedup.length : ℚ) /
        (reviews.length : ℚ))
    then [repetitionWarning] else []) ++
  (if 5 < topWords.length ∧
      (3/5 : ℝ) < ((topWords.take 3).map WordStat.score).sum / ((topWords.map WordStat.score).sum)
    then [entropyWarning] else [])

/-- `AspectSegment` from `types.ts`. -/
structure AspectSegment where
  segment_text : List Char
  aspect_category : String
  sentiment : SentimentLabel
  sentiment_score : ℚ
  reasoning : String
  trigger_word : List Char
deriving DecidableEq

/-- `AnalyzedReview` from `types.ts`. -/
structure AnalyzedReview where
  review_id : String
  original_text : List Char
  segments : List AspectSegment
deriving DecidableEq

/-- One value of the `aspectAggregates` map of `performLocalAnalysis`
(`reviewIds` and `uniqueTriggers` are JS `Set`s, kept as insertion-ordered
distinct lists). -/
structure AggEntry where
  count : ℕ
  reviewIds : List String
  scoreSum : ℚ
  posCount : ℕ
  negCount : ℕ
  neuCount : ℕ
  keywords : List (List Char)
  uniqueTriggers : List (List Char)
deriving DecidableEq

/-- The JS `Map` keyed by aspect name, as an association list in insertion
order. -/
abbrev AggMap := List (String × AggEntry)

/-- JS `Map.prototype.set`: overwrite in place, or append a new key. -/
def mapSet : AggMap → String → AggEntry → AggMap
  | [], k, v => [(k, v)]
  | (k', v') :: rest, k, v =>
    if k' = k then (k, v) :: rest else (k', v') :: mapSet rest k v

/-- Mutation of the value at `k` if present — the source's
`const agg = aspectAggregates.get(...); if (agg) ... ` guard; no-op when
`k` is absent. -/
def mapUpdate : AggMap → String → (AggEntry → AggEntry) → AggMap
  | [], _, _ => []
  | (k', v) :: rest, k, f =>
    if k' = k then (k', f v) :: rest else (k', v) :: mapUpdate rest k f

/-- The aggregates map after the initial `taxonomy.forEach`. -/
def initAggs (taxonomy : List AspectDefinition) : AggMap :=
  taxonomy.foldl (fun m a => mapSet m a.name ⟨0, [], 0, 0, 0, 0, a.keywords, []⟩) []

/-- The per-segment aggregate mutation of `performLocalAnalysis`. -/
def tallySeg (rid : String) (seg : AspectSegment) (g : AggEntry) : AggEntry :=
  let g' : AggEntry :=
    { g with
      count := g.count + 1
      reviewIds := setAdd g.reviewIds rid
      scoreSum := g.scoreSum + seg.sentiment_score
      uniqueTriggers := setAdd g.uniqueTriggers seg.trigger_word }
  match seg.sentiment with
  | SentimentLabel.POSITIVE => { g' with posCount := g'.posCount + 1 }
  | SentimentLabel.NEGATIVE => { g' with negCount := g'.negCount + 1 }
  | _ => { g' with neuCount := g'.neuCount + 1 }

/-- Apply one matched segment to the aggregates map. -/
def applySeg (rid : String) (m : AggMap) (seg : AspectSegment) : AggMap :=
  mapUpdate m seg.aspect_category (tallySeg rid seg)

/-- The segment a clause contributes, if `detectAspect` finds a match. -/
def clauseSegment (polarity : List Char → Option ℚ) (taxonomy : List AspectDefinition)
    (clause : List Char) : Option AspectSegment :=
  match detectAspect clause taxonomy with
  | none => none
  | some m =>
    let ls := analyzeSentiment polarity clause
    some ⟨clause, m.1, ls.1, ls.2, "Keyword Match", m.2⟩

/-- All matched segments of one review, in clause order. -/
def segsOfReview (polarity : List Char → Option ℚ) (taxonomy : List AspectDefinition)
    (text : List Char) : List AspectSegment :=
  (segmentTextIntoClauses text).filterMap (clauseSegment polarity taxonomy)

/-- The body of the review loop: collect the review's matched segments,
append the review to `analyzedReviews` when it has any, and fold the
aggregate updates (the source interleaves segment creation and aggregate
mutation per clause; segment creation never reads the aggregates, so the
interleaving is this composition). -/
def processReview (polarity : List Char → Option ℚ) (taxonomy : List AspectDefinition)
    (st : List AnalyzedReview × AggMap) (r : ReviewInput) :
    List AnalyzedReview × AggMap :=
  let segs := segsOfReview polarity taxonomy r.text
  (if segs = [] then st.1 else st.1 ++ [⟨r.id, r.text, segs⟩],
   segs.foldl (applySeg r.id) st.2)

/-- `AspectStats` from `types.ts`.  The source computes the float
`confidence` inline from the two aggregate set sizes; the embedding keeps
those sizes (`reviewCount`, `triggerCount`) in the record and recovers the
real confidence value via `statConfidence`. -/
structure AspectStats where
  name : String
  keywords : List (List Char)
  count : ℕ
  reviewCount : ℕ
  positive : ℕ
  negative : ℕ
  neutral : ℕ
  net_sentiment : ℚ
  triggerCount : ℕ
deriving DecidableEq

/-- The final per-aspect `map` of `performLocalAnalysis` (computable
fields). -/
def mkStat (p : String × AggEntry) : AspectStats :=
  { name := p.1
    keywords := p.2.keywords
    count := p.2.count
    reviewCount := p.2.reviewIds.length
    positive := p.2.posCount
    negative := p.2.negCount
    neutral := p.2.neuCount
    net_sentiment := if 0 < p.2.count then p.2.scoreSum / (p.2.count : ℚ) else 0
    triggerCount := p.2.uniqueTriggers.length }

/-- `parseFloat(x.toFixed(2))`: round to two decimal places, ties toward
positive infinity. -/
noncomputable def toFixed2 (x : ℝ) : ℝ :=
  ((round (100 * x) : ℤ) : ℝ) / 100

/-- The confidence computation of `performLocalAnalysis`:
`coverageScore * 0.7 + diversityScore * 0.3` with
`coverageScore = min(1, log2(reviewCount + 1) / log2 50)` and
`diversityScore = min(1, uniqueTriggers.size / 3)`, stored as
`parseFloat(confidence.toFixed(2))`. -/
noncomputable def statConfidence (s : AspectStats) : ℝ :=
  toFixed2 ((min 1 (Real.logb 2 ((s.reviewCount : ℝ) + 1) / Real.logb 2 50)) * (7/10)
    + (min 1 ((s.triggerCount : ℝ) / 3)) * (3/10))

/-- `performLocalAnalysis` from `localAnalysis.ts`.  The progress callback
and the batched `await` yields do not affect the returned value and are
not modelled.  Stats are sorted descending by `count` (the source's stable
`sort((a, b) => b.count - a.count)`). -/
def performLocalAnalysis (polarity : List Char → Option ℚ) (reviews : List ReviewInput)
    (taxonomy : List AspectDefinition) : List AnalyzedReview × List AspectStats :=
  let res := reviews.foldl (processReview polarity taxonomy) ([], initAggs taxonomy)
  (res.1, sortByKeyDesc AspectStats.count (res.2.map mkStat))

/-! ## Basic list lemmas -/

theorem head?_dropWhile_not (p : Char → Bool) (l : List Char) :
    ∀ c, (l.dropWhile p).head? = some c → p c = false := by
  induction l with
  | nil => intro c h; simp at h
  | cons a rest ih =>
    intro c h
    rw [List.dropWhile_cons] at h
    by_cases ha : p a
    · rw [if_pos ha] at h
      exact ih c h
    · rw [if_neg ha] at h
      simp only [List.head?_cons, Option.some.injEq] at h
      subst h
      simpa using ha

theorem dropWhile_eq_self_of_head? (p : Char → Bool) (l : List Char)
    (h : ∀ c, l.head? = some c → p c = false) : l.dropWhile p = l := by
  cases l with
  | nil => rfl
  | cons a rest =>
    rw [List.dropWhile_cons, h a rfl]
    simp

theorem jsTrim_head (l : List Char) :
    ∀ c, (jsTrim l).head? = some c → isWsChar c = false := by
  intro c h
  unfold jsTrim at h
  rw [List.head?_reverse] at h
  set a := l.dropWhile isWsChar with ha
  rcases hd : a.reverse.dropWhile isWsChar with _ | ⟨x, xs⟩
  · rw [hd] at h; simp at h
  · have hne : a.reverse.dropWhile isWsChar ≠ [] := by rw [hd]; simp
    have hsplit := List.takeWhile_append_dropWhile (p := isWsChar) (l := a.reverse)
    have hlast : (a.reverse.dropWhile isWsChar).getLast? = a.reverse.getLast? := by
      conv_rhs => rw [← hsplit]
      exact (List.getLast?_append_of_ne_nil _ hne).symm
    rw [hlast, List.getLast?_reverse] at h
    exact head?_dropWhile_not isWsChar l c h

theorem jsTrim_getLast (l : List Char) :
    ∀ c, (jsTrim l).getLast? = some c → isWsChar c = false := by
  intro c h
  unfold jsTrim at h
  rw [List.getLast?_reverse] at h
  exact head?_dropWhile_not isWsChar (l.dropWhile isWsChar).reverse c h

theorem jsTrim_of_clean (l : List Char)
    (h1 : ∀ c, l.head? = some c → isWsChar c = false)
    (h2 : ∀ c, l.getLast? = some c → isWsChar c = false) : jsTrim l = l := by
  unfold jsTrim
  rw [dropWhile_eq_self_of_head? _ _ h1]
  rw [dropWhile_eq_self_of_head? _ _ (by intro c hc; rw [List.head?_reverse] at hc; exact h2 c hc)]
  exact List.reverse_reverse l

theorem jsTrim_idem (l : List Char) : jsTrim (jsTrim l) = jsTrim l :=
  jsTrim_of_clean _ (jsTrim_head l) (jsTrim_getLast l)

/-! ## C3: the sentiment scorer is total, falls back to Neutral/0, and its
label agrees with the ±0.05 thresholds on the returned score -/

/-- **C3.** The sentiment scorer is total (it is a function); when the
underlying lexicon analyzer throws (`polarity text = none`) it returns
`(NEUTRAL, 0)`; and the returned label is `POSITIVE` iff the returned
score is ≥ 0.05, `NEGATIVE` iff it is ≤ -0.05, and `NEUTRAL` otherwise. -/
theorem analyzeSentiment_total_and_thresholds (polarity : List Char → Option ℚ)
    (text : List Char) :
    (polarity text = none → analyzeSentiment polarity text = (SentimentLabel.NEUTRAL, 0)) ∧
    ((analyzeSentiment polarity text).1 = SentimentLabel.POSITIVE ↔
      1/20 ≤ (analyzeSentiment polarity text).2) ∧
    ((analyzeSentiment polarity text).1 = SentimentLabel.NEGATIVE ↔
      (analyzeSentiment polarity text).2 ≤ -(1/20)) ∧
    ((analyzeSentiment polarity text).1 = SentimentLabel.NEUTRAL ↔
      (-(1/20) < (analyzeSentiment polarity text).2 ∧
        (analyzeSentiment polarity text).2 < 1/20)) := by
  cases hp : polarity text with
  | none =>
    have he : analyzeSentiment polarity text = (SentimentLabel.NEUTRAL, 0) := by
      simp [analyzeSentiment, hp]
    rw [he]
    exact ⟨fun _ => rfl,
      iff_of_false (by simp) (by norm_num),
      iff_of_false (by simp) (by norm_num),
      iff_of_true rfl (by norm_num)⟩
  | some c =>
    refine ⟨fun h => Option.noConfusion h, ?_⟩
    simp only [analyzeSentiment, hp]
    split_ifs with h1 h2
    · refine ⟨iff_of_true rfl h1, iff_of_false (by simp) (by intro h; linarith), ?_⟩
      refine iff_of_false (by simp) ?_
      rintro ⟨-, h⟩
      linarith
    · refine ⟨iff_of_false (by simp) (by intro h; linarith), iff_of_true rfl h2, ?_⟩
      refine iff_of_false (by simp) ?_
      rintro ⟨h, -⟩
      linarith
    · refine ⟨iff_of_false (by simp) h1, iff_of_false (by simp) h2, ?_⟩
      refine iff_of_true rfl ⟨by linarith [not_le.mp h2], not_le.mp h1⟩

/-- Witness for C3 at a concrete throwing analyzer and input. -/
theorem analyzeSentiment_total_and_thresholds_witness :
    analyzeSentiment (fun _ => none) "corrupt input".data = (SentimentLabel.NEUTRAL, 0) :=
  (analyzeSentiment_total_and_thresholds (fun _ => none) "corrupt input".data).1 rfl

/-! ## C4: clause segmenter output clauses are trimmed and at least
3 characters long; there is NO whole-text fallback for non-empty input -/

/-- **C4 (amended).** Every clause returned by the segmenter is trimmed
and has (trimmed) length at least 3.  The whole-text fallback asserted by
the claim does not exist (see the counterexample). -/
theorem segmentTextIntoClauses_trimmed_min3 (text : List Char) :
    ∀ cl ∈ segmentTextIntoClauses text, 2 < cl.length ∧ jsTrim cl = cl := by
  intro cl hcl
  unfold segmentTextIntoClauses at hcl
  simp only [List.mem_filter, List.mem_map, decide_eq_true_eq] at hcl
  obtain ⟨⟨raw, -, rfl⟩, hlen⟩ := hcl
  exact ⟨hlen, jsTrim_idem raw⟩

/-- Witness for C4 (amended) on a concrete clause of a concrete input. -/
theorem segmentTextIntoClauses_trimmed_min3_witness :
    2 < ("Tastes great".data).length ∧ jsTrim "Tastes great".data = "Tastes great".data :=
  segmentTextIntoClauses_trimmed_min3 "Tastes great but the box was crushed.".data
    "Tastes great".data (by with_unfolding_all decide)

/-- **C4 counterexample.** The non-empty input `"Hi."` yields zero
clauses: the claimed whole-text fallback does not exist in
`segmentTextIntoClauses`. -/
theorem segmentTextIntoClauses_no_fallback_cex :
    "Hi.".data ≠ [] ∧ segmentTextIntoClauses "Hi.".data = [] := by
  constructor
  · decide
  · with_unfolding_all decide

/-! ## C9: idempotence of normalization -/

theorem endsWith_iff (l suf : List Char) : endsWith l suf = true ↔ suf.reverse <+: l.reverse := by
  unfold endsWith
  exact List.isPrefixOf_iff_prefix

theorem dropLastN_reverse (l : List Char) (n : ℕ) :
    (dropLastN l n).reverse = l.reverse.drop n := by
  unfold dropLastN
  exact List.reverse_reverse _

theorem isPrefixOf_cons_false (a b : Char) (as bs : List Char) (h : a ≠ b) :
    List.isPrefixOf (a :: as) (b :: bs) = false := by
  simp [List.isPrefixOf, h]

theorem endsWith_false_of_rev_heads (l suf : List Char) (a c : Char) (t cs : List Char)
    (hl : l.reverse = a :: t) (hs : suf.reverse = c :: cs) (h : c ≠ a) :
    endsWith l suf = false := by
  unfold endsWith
  rw [hl, hs]
  exact isPrefixOf_cons_false _ _ _ _ h

theorem singularize_of_short {w : List Char} (h : w.length ≤ 3) : singularize w = w := by
  rw [singularize, if_pos h]

theorem singularize_eq_self_of_rev_head (w : List Char) (a : Char) (t : List Char)
    (hrev : w.reverse = a :: t) (ha : a ≠ 's') : singularize w = w := by
  by_cases h1 : w.length ≤ 3
  · exact singularize_of_short h1
  · have hies : endsWith w ("ies".data) = false :=
      endsWith_false_of_rev_heads w ("ies".data) a 's' t ['e', 'i'] hrev rfl
        (fun hs => ha hs.symm)
    have hs : endsWith w ("s".data) = false :=
      endsWith_false_of_rev_heads w ("s".data) a 's' t [] hrev rfl
        (fun hs => ha hs.symm)
    rw [singularize, if_neg h1, if_neg (by simp [hies]), if_neg (by simp [hs])]

/-- `singularize` maps every already-singularized token to itself. -/
theorem singularize_idem (w : List Char) : singularize (singularize w) = singularize w := by
  by_cases h1 : w.length ≤ 3
  · rw [singularize_of_short h1]
    exact singularize_of_short h1
  · by_cases hies : endsWith w ("ies".data) = true ∧ 4 < w.length
    · have hw : singularize w = dropLastN w 3 ++ ['y'] := by
        rw [singularize, if_neg h1, if_pos (by simp [hies.1, hies.2])]
      rw [hw]
      refine singularize_eq_self_of_rev_head _ 'y' (w.reverse.drop 3) ?_ (by decide)
      rw [List.reverse_append, dropLastN_reverse]
      rfl
    · by_cases hsr : endsWith w ("s".data) = true ∧
        endsWith w ("ss".data) = false ∧ endsWith w ("us".data) = false
      · have hw : singularize w = dropLastN w 1 := by
          rw [singularize, if_neg h1, if_neg ?_, if_pos ?_]
          · simp [hsr.1, hsr.2.1, hsr.2.2]
          · simp only [Bool.and_eq_true, decide_eq_true_eq]
            exact fun hh => hies ⟨hh.1, hh.2⟩
        rw [hw]
        obtain ⟨t, ht⟩ := (endsWith_iff w _).mp hsr.1
        have hrev : w.reverse = 's' :: t := by
          rw [← ht]; rfl
        cases t with
        | nil =>
          exfalso
          have : w.length = 1 := by
            have := congrArg List.length hrev
            simpa using this
          omega
        | cons a t' =>
          have ha : a ≠ 's' := by
            intro haeq
            subst haeq
            have : endsWith w ("ss".data) = true := by
              rw [endsWith_iff, show ("ss".data).reverse = ['s', 's'] from rfl, hrev]
              exact ⟨t', rfl⟩
            rw [this] at hsr
            exact absurd hsr.2.1 (by simp)
          refine singularize_eq_self_of_rev_head _ a t' ?_ ha
          rw [dropLastN_reverse, hrev]
          rfl
      · have hw : singularize w = w := by
          rw [singularize, if_neg h1, if_neg ?_, if_neg ?_]
          · intro hcond
            simp only [Bool.and_eq_true, Bool.not_eq_true', decide_eq_true_eq] at hcond
            exact hsr ⟨hcond.1.1, hcond.1.2, hcond.2⟩
          · simp only [Bool.and_eq_true, decide_eq_true_eq]
            exact fun hh => hies ⟨hh.1, hh.2⟩
        rw [hw]
        exact hw

theorem singularize_length {w : List Char} (h : 2 < w.length) :
    2 < (singularize w).length := by
  unfold singularize
  split_ifs with h1 h2 h3
  · exact h
  · simp only [Bool.and_eq_true, decide_eq_true_eq] at h2
    simp only [List.length_append, List.length_reverse, List.length_drop, dropLastN,
      List.length_cons, List.length_nil]
    omega
  · simp only [dropLastN, List.length_reverse, List.length_drop]
    omega
  · exact h

theorem singularize_chars {w : List Char} {c : Char} (hc : c ∈ singularize w) :
    c ∈ w ∨ c = 'y' := by
  unfold singularize at hc
  split_ifs at hc
  · exact Or.inl hc
  · rcases List.mem_append.mp hc with hm | hm
    · left
      unfold dropLastN at hm
      have := List.mem_reverse.mp hm
      exact List.mem_reverse.mp ((List.drop_subset _ _) this)
    · right
      simpa using hm
  · left
    unfold dropLastN at hc
    have := List.mem_reverse.mp hc
    exact List.mem_reverse.mp ((List.drop_subset _ _) this)
  · exact Or.inl hc

/-- Every character of every field of a run-split is a non-delimiter and
comes from the accumulator or the remaining input. -/
theorem splitOnRunsGo_mem_field (p : Char → Bool) :
    ∀ (f : ℕ) (l cur : List Char), l.length ≤ f → (∀ c ∈ cur, p c = false) →
      ∀ out ∈ splitOnRunsGo p f l cur, ∀ c ∈ out, p c = false ∧ (c ∈ cur ∨ c ∈ l) := by
  intro f
  induction f with
  | zero =>
    intro l cur hf hcur out hout c hc
    have hl : l = [] := List.length_eq_zero.mp (Nat.le_zero.mp hf)
    subst hl
    simp only [splitOnRunsGo, List.mem_singleton] at hout
    subst hout
    exact ⟨hcur c (List.mem_reverse.mp hc), Or.inl (List.mem_reverse.mp hc)⟩
  | succ n ih =>
    intro l cur hf hcur out hout c hc
    cases l with
    | nil =>
      simp only [splitOnRunsGo, List.mem_singleton] at hout
      subst hout
      exact ⟨hcur c (List.mem_reverse.mp hc), Or.inl (List.mem_reverse.mp hc)⟩
    | cons a rest =>
      simp only [splitOnRunsGo] at hout
      by_cases hpa : p a
      · rw [if_pos hpa] at hout
        rcases List.mem_cons.mp hout with rfl | hout'
        · exact ⟨hcur c (List.mem_reverse.mp hc), Or.inl (List.mem_reverse.mp hc)⟩
        · have hlen : (rest.dropWhile p).length ≤ n := by
            have := (List.dropWhile_sublist (l := rest) p).length_le
            simp only [List.length_cons] at hf
            omega
          obtain ⟨hpc, hmem⟩ := ih (rest.dropWhile p) [] hlen (by simp) out hout' c hc
          refine ⟨hpc, Or.inr ?_⟩
          rcases hmem with h | h
          · simp at h
          · exact List.mem_cons_of_mem a ((List.dropWhile_sublist p).subset h)
      · rw [if_neg hpa] at hout
        have hlen : rest.length ≤ n := by
          simp only [List.length_cons] at hf
          omega
        have hcur' : ∀ x ∈ a :: cur, p x = false := by
          intro x hx
          rcases List.mem_cons.mp hx with rfl | hx'
          · simpa using hpa
          · exact hcur x hx'
        obtain ⟨hpc, hmem⟩ := ih rest (a :: cur) hlen hcur' out hout c hc
        refine ⟨hpc, ?_⟩
        rcases hmem with h | h
        · rcases List.mem_cons.mp h with rfl | h'
          · exact Or.inr (List.mem_cons_self _ _)
          · exact Or.inl h'
        · exact Or.inr (List.mem_cons_of_mem a h)

theorem cleanText_chars (t : List Char) :
    ∀ c ∈ cleanText t, isLowerAlnum c = true ∨ isWsChar c = true := by
  intro c hc
  unfold cleanText at hc
  simp only [List.mem_map] at hc
  obtain ⟨c1, hc1, rfl⟩ := hc
  split_ifs with h
  · rw [Bool.or_eq_true] at h
    rcases h with h' | h'
    · exact Or.inl h'
    · exact Or.inr h'
  · exact Or.inr (by decide)

/-- Every token of the extractor's tokenizer has length > 2 and consists
of lower-case letters and digits only. -/
theorem tokensOf_facts (t : List Char) :
    ∀ tok ∈ tokensOf t, 2 < tok.length ∧ ∀ c ∈ tok, isLowerAlnum c = true := by
  intro tok htok
  unfold tokensOf at htok
  simp only [List.mem_map] at htok
  obtain ⟨raw, hraw, rfl⟩ := htok
  unfold rawTokens at hraw
  simp only [List.mem_filter, decide_eq_true_eq] at hraw
  obtain ⟨hmem, hlen⟩ := hraw
  refine ⟨singularize_length hlen, ?_⟩
  intro c hc
  rcases singularize_chars hc with hcw | rfl
  · obtain ⟨hws, hsrc⟩ := splitOnRunsGo_mem_field isWsChar (cleanText t).length
      (cleanText t) [] le_rfl (by simp) raw hmem c hcw
    rcases hsrc with h | h
    · simp at h
    · rcases cleanText_chars t c h with hla | hws'
      · exact hla
      · rw [hws'] at hws
        exact absurd hws (by simp)
  · decide

theorem toLower_fix {c : Char} (h : isLowerAlnum c = true) : Char.toLower c = c := by
  unfold isLowerAlnum at h
  unfold Char.toLower
  rw [if_neg]
  intro hc
  obtain ⟨h1, h2⟩ := hc
  have h1' : 65 ≤ c.val.toNat := h1
  have h2' : c.val.toNat ≤ 90 := h2
  rw [Bool.or_eq_true] at h
  rcases h with hl | hd
  · simp only [Bool.and_eq_true, decide_eq_true_eq, Char.le_def, UInt32.le_def,
      BitVec.le_def] at hl
    have : 97 ≤ c.val.toNat := hl.1
    omega
  · simp only [Char.isDigit, Bool.and_eq_true, decide_eq_true_eq, UInt32.le_def,
      BitVec.le_def, ge_iff_le] at hd
    have : c.val.toNat ≤ 57 := hd.2
    omega

/-- Space-rejoin of a token sequence (the "rejoined output" of the
normalizer). -/
def rejoinTokens : List (List Char) → List Char
  | [] => []
  | [t] => t
  | t :: t2 :: rest => t ++ ' ' :: rejoinTokens (t2 :: rest)

theorem rejoinTokens_chars (ts : List (List Char))
    (h : ∀ tok ∈ ts, ∀ c ∈ tok, isLowerAlnum c = true) :
    ∀ c ∈ rejoinTokens ts, isLowerAlnum c = true ∨ c = ' ' := by
  induction ts with
  | nil => intro c hc; simp [rejoinTokens] at hc
  | cons t rest ih =>
    cases rest with
    | nil =>
      intro c hc
      exact Or.inl (h t (by simp) c (by simpa [rejoinTokens] using hc))
    | cons t2 rest' =>
      intro c hc
      simp only [rejoinTokens, List.mem_append, List.mem_cons] at hc
      rcases hc with hc | hc | hc
      · exact Or.inl (h t (by simp) c hc)
      · exact Or.inr hc
      · exact ih (fun tok htok c' hc' => h tok (List.mem_cons_of_mem t htok) c' hc') c hc

theorem map_eq_self_of_mem {f : Char → Char} {l : List Char}
    (h : ∀ c ∈ l, f c = c) : l.map f = l := by
  induction l with
  | nil => rfl
  | cons a rest ih =>
    simp only [List.map_cons, h a (List.mem_cons_self a rest),
      ih (fun c hc => h c (List.mem_cons_of_mem a hc))]

theorem cleanText_fix (l : List Char)
    (h : ∀ c ∈ l, isLowerAlnum c = true ∨ c = ' ') : cleanText l = l := by
  unfold cleanText
  rw [List.map_map]
  apply map_eq_self_of_mem
  intro c hc
  rcases h c hc with hla | rfl
  · simp only [Function.comp_apply, toLower_fix hla, hla, Bool.true_or, if_pos]
  · decide

theorem splitOnRunsGo_nil (p : Char → Bool) (f : ℕ) (cur : List Char) :
    splitOnRunsGo p f [] cur = [cur.reverse] := by
  cases f <;> rfl

/-- A delimiter-free block at the head of the input is consumed into the
current field. -/
theorem splitOnRunsGo_field (p : Char → Bool) (t : List Char) (ht : ∀ c ∈ t, p c = false) :
    ∀ (f : ℕ) (l cur : List Char), t.length + l.length ≤ f →
      splitOnRunsGo p f (t ++ l) cur = splitOnRunsGo p (f - t.length) l (t.reverse ++ cur) := by
  induction t with
  | nil =>
    intro f l cur hf
    simp
  | cons a t' ih =>
    intro f l cur hf
    cases f with
    | zero =>
      simp only [List.length_cons] at hf
      omega
    | succ g =>
      have hpa : p a = false := ht a (List.mem_cons_self _ _)
      simp only [List.cons_append, splitOnRunsGo]
      rw [if_neg (by simp [hpa])]
      have h1 : (a :: t').reverse ++ cur = t'.reverse ++ a :: cur := by simp
      have h2 : g + 1 - (a :: t').length = g - t'.length := by
        simp only [List.length_cons]
        omega
      rw [h1, h2]
      refine ih (fun c hc => ht c (List.mem_cons_of_mem a hc)) g l (a :: cur) ?_
      simp only [List.length_cons, List.length_append] at hf ⊢
      omega

theorem rejoinTokens_head_nonws (t2 : List Char) (rest : List (List Char))
    (hne : t2 ≠ []) (hws : ∀ c ∈ t2, isWsChar c = false) :
    ∀ c, (rejoinTokens (t2 :: rest)).head? = some c → isWsChar c = false := by
  intro c hc
  cases t2 with
  | nil => exact absurd rfl hne
  | cons a t2' =>
    cases rest with
    | nil =>
      simp only [rejoinTokens, List.head?_cons, Option.some.injEq] at hc
      rw [← hc]
      exact hws a (List.mem_cons_self _ _)
    | cons t3 rest' =>
      simp only [rejoinTokens, List.cons_append, List.head?_cons, Option.some.injEq] at hc
      rw [← hc]
      exact hws a (List.mem_cons_self _ _)

/-- Splitting the space-rejoin of non-empty whitespace-free tokens
recovers the tokens. -/
theorem splitOnRunsGo_rejoin (ts : List (List Char))
    (hne : ∀ tok ∈ ts, tok ≠ []) (hws : ∀ tok ∈ ts, ∀ c ∈ tok, isWsChar c = false) :
    ts ≠ [] → ∀ f, (rejoinTokens ts).length ≤ f →
      splitOnRunsGo isWsChar f (rejoinTokens ts) [] = ts := by
  induction ts with
  | nil => intro h; exact absurd rfl h
  | cons t rest ih =>
    intro _ f hf
    cases rest with
    | nil =>
      have hfield := splitOnRunsGo_field isWsChar t (hws t (by simp)) f [] []
        (by simpa [rejoinTokens] using hf)
      simp only [List.append_nil] at hfield
      simp only [rejoinTokens]
      rw [hfield, splitOnRunsGo_nil]
      simp
    | cons t2 rest' =>
      have hlen : (rejoinTokens (t :: t2 :: rest')).length =
          t.length + 1 + (rejoinTokens (t2 :: rest')).length := by
        simp only [rejoinTokens, List.length_append, List.length_cons]
        omega
      have hfield := splitOnRunsGo_field isWsChar t (hws t (by simp)) f
        (' ' :: rejoinTokens (t2 :: rest')) [] (by rw [hlen] at hf; simp; omega)
      simp only [rejoinTokens] at hfield ⊢
      rw [hfield]
      obtain ⟨g, hg⟩ : ∃ g, f - t.length = g + 1 := by
        rw [hlen] at hf
        refine ⟨f - t.length - 1, ?_⟩
        omega
      rw [hg]
      simp only [splitOnRunsGo]
      rw [if_pos (by decide)]
      have hdrop : (rejoinTokens (t2 :: rest')).dropWhile isWsChar =
          rejoinTokens (t2 :: rest') :=
        dropWhile_eq_self_of_head? _ _
          (rejoinTokens_head_nonws t2 rest' (hne t2 (by simp))
            (hws t2 (by simp)))
      rw [hdrop]
      have hrec := ih (fun tok htok => hne tok (List.mem_cons_of_mem t htok))
        (fun tok htok => hws tok (List.mem_cons_of_mem t htok)) (by simp) g
        (by rw [hlen] at hf; omega)
      rw [hrec]
      simp

theorem lowerAlnum_not_ws {c : Char} (h : isLowerAlnum c = true) : isWsChar c = false := by
  by_contra hws
  rw [Bool.not_eq_false] at hws
  unfold isWsChar at hws
  simp only [Bool.or_eq_true, beq_iff_eq] at hws
  rcases hws with ((((rfl | rfl) | rfl) | rfl) | rfl) | rfl <;> exact absurd h (by decide)

/-- Applying the live tokenizer/normalizer to the space-rejoined output of
a first normalization yields the same token sequence. -/
theorem tokensOf_rejoin_eq (t : List Char) :
    tokensOf (rejoinTokens (tokensOf t)) = tokensOf t := by
  rcases hts : tokensOf t with _ | ⟨tok0, ts'⟩
  · rfl
  · have hfacts := tokensOf_facts t
    rw [hts] at hfacts
    have hchars : ∀ tok ∈ tok0 :: ts', ∀ c ∈ tok, isLowerAlnum c = true :=
      fun tok htok => (hfacts tok htok).2
    have hne : ∀ tok ∈ tok0 :: ts', tok ≠ [] := by
      intro tok htok he
      have := (hfacts tok htok).1
      rw [he] at this
      simp at this
    have hws : ∀ tok ∈ tok0 :: ts', ∀ c ∈ tok, isWsChar c = false :=
      fun tok htok c hc => lowerAlnum_not_ws (hchars tok htok c hc)
    show ((jsSplit isWsChar (cleanText (rejoinTokens (tok0 :: ts')))).filter
      (fun w => 2 < w.length)).map singularize = tok0 :: ts'
    rw [cleanText_fix _ (by
      intro c hc
      rcases rejoinTokens_chars _ hchars c hc with h | h
      · exact Or.inl h
      · exact Or.inr h)]
    rw [show jsSplit isWsChar (rejoinTokens (tok0 :: ts')) = tok0 :: ts' from
      splitOnRunsGo_rejoin _ hne hws (by simp) _ le_rfl]
    rw [List.filter_eq_self.mpr (by
      intro tok htok
      simpa using (hfacts tok htok).1)]
    rw [← hts]
    show ((rawTokens t).map singularize).map singularize = (rawTokens t).map singularize
    rw [List.map_map]
    exact List.map_congr_left (fun w _ => singularize_idem w)

/-- **C9 (amended).** Normalization of the live revision is idempotent:
re-normalizing the space-rejoined token sequence yields the same token
sequence, and `singularize` maps every already-singularized token to
itself.  (The claim's stronger conjunct — that the superseded revision's
`stemmer` maps every already-stemmed token to itself — is false; see the
counterexample.) -/
theorem normalization_idempotent :
    (∀ t, tokensOf (rejoinTokens (tokensOf t)) = tokensOf t) ∧
    (∀ w, singularize (singularize w) = singularize w) :=
  ⟨tokensOf_rejoin_eq, singularize_idem⟩

/-- **C9 counterexample.** The stemmer is not idempotent: it sends the
already-stemmed token "bas" (= stemmer "bases") to "ba". -/
theorem stemmer_not_idempotent_cex :
    stemmer "bases".data = "bas".data ∧ stemmer (stemmer "bases".data) = "ba".data ∧
    stemmer (stemmer "bases".data) ≠ stemmer "bases".data :=
  ⟨by decide, by decide, by decide⟩

/-! ## C1: longest-keyword-wins aspect matching -/

/-- `b` holds a match at least as long as `kw`. -/
def MatchDom (b : Option (String × List Char)) (kw : List Char) : Prop :=
  ∃ p, b = some p ∧ kw.length ≤ p.2.length

theorem kwStep_mono (nm : List Char) (aname : String) (b : Option (String × List Char))
    (kw0 kw : List Char) (h : MatchDom b kw) : MatchDom (kwStep nm aname b kw0) kw := by
  obtain ⟨p, hb, hle⟩ := h
  unfold kwStep
  split_ifs with hm
  · subst hb
    by_cases hlt : p.2.length < kw0.length
    · exact ⟨(aname, kw0), by simp [hlt], by simpa using le_of_lt (lt_of_le_of_lt hle hlt)⟩
    · exact ⟨p, by simp [hlt], hle⟩
  · exact ⟨p, hb, hle⟩

theorem kwStep_self (nm : List Char) (aname : String) (b : Option (String × List Char))
    (kw : List Char) (h : wholeWordMatch (kw.map Char.toLower) nm = true) :
    MatchDom (kwStep nm aname b kw) kw := by
  unfold kwStep
  rw [if_pos h]
  cases b with
  | none => exact ⟨(aname, kw), rfl, le_rfl⟩
  | some prev =>
    by_cases hlt : prev.2.length < kw.length
    · exact ⟨(aname, kw), by simp [hlt], le_rfl⟩
    · exact ⟨prev, by simp [hlt], le_of_not_lt hlt⟩

theorem kwStep_sound (nm : List Char) (aname : String) (b : Option (String × List Char))
    (kw0 : List Char) :
    ∀ p, kwStep nm aname b kw0 = some p →
      b = some p ∨ (p = (aname, kw0) ∧ wholeWordMatch (kw0.map Char.toLower) nm = true) := by
  intro p hp
  unfold kwStep at hp
  split_ifs at hp with hm
  · cases b with
    | none => exact Or.inr ⟨(Option.some.inj hp).symm, hm⟩
    | some prev =>
      dsimp only at hp
      split_ifs at hp with hlt
      · exact Or.inr ⟨(Option.some.inj hp).symm, hm⟩
      · exact Or.inl hp
  · exact Or.inl hp

theorem foldl_kwStep_mono (nm : List Char) (aname : String) (kws : List (List Char)) :
    ∀ b kw, MatchDom b kw → MatchDom (kws.foldl (kwStep nm aname) b) kw := by
  induction kws with
  | nil => intro b kw h; exact h
  | cons kw0 rest ih =>
    intro b kw h
    exact ih _ kw (kwStep_mono nm aname b kw0 kw h)

theorem foldl_kwStep_self (nm : List Char) (aname : String) (kws : List (List Char)) :
    ∀ b kw, kw ∈ kws → wholeWordMatch (kw.map Char.toLower) nm = true →
      MatchDom (kws.foldl (kwStep nm aname) b) kw := by
  induction kws with
  | nil => intro b kw h; simp at h
  | cons kw0 rest ih =>
    intro b kw hmem hm
    rcases List.mem_cons.mp hmem with rfl | hmem'
    · exact foldl_kwStep_mono nm aname rest _ kw (kwStep_self nm aname b kw hm)
    · exact ih _ kw hmem' hm

theorem foldl_kwStep_sound (nm : List Char) (aname : String) (kws : List (List Char)) :
    ∀ b p, kws.foldl (kwStep nm aname) b = some p →
      b = some p ∨ (p.1 = aname ∧ p.2 ∈ kws ∧
        wholeWordMatch (p.2.map Char.toLower) nm = true) := by
  induction kws with
  | nil => intro b p hp; exact Or.inl hp
  | cons kw0 rest ih =>
    intro b p hp
    rcases ih (kwStep nm aname b kw0) p hp with h1 | ⟨hn, hmem, hm⟩
    · rcases kwStep_sound nm aname b kw0 p h1 with h2 | ⟨rfl, hm⟩
      · exact Or.inl h2
      · exact Or.inr ⟨rfl, List.mem_cons_self _ _, hm⟩
    · exact Or.inr ⟨hn, List.mem_cons_of_mem kw0 hmem, hm⟩

theorem foldl_outer_mono (nm : List Char) (taxonomy : List AspectDefinition) :
    ∀ b kw, MatchDom b kw →
      MatchDom (taxonomy.foldl
        (fun best aspect => aspect.keywords.foldl (kwStep nm aspect.name) best) b) kw := by
  induction taxonomy with
  | nil => intro b kw h; exact h
  | cons a rest ih =>
    intro b kw h
    exact ih _ kw (foldl_kwStep_mono nm a.name a.keywords b kw h)

theorem foldl_outer_self (nm : List Char) (taxonomy : List AspectDefinition) :
    ∀ b a kw, a ∈ taxonomy → kw ∈ a.keywords →
      wholeWordMatch (kw.map Char.toLower) nm = true →
      MatchDom (taxonomy.foldl
        (fun best aspect => aspect.keywords.foldl (kwStep nm aspect.name) best) b) kw := by
  induction taxonomy with
  | nil => intro b a kw h; simp at h
  | cons a0 rest ih =>
    intro b a kw hmem hkw hm
    rcases List.mem_cons.mp hmem with rfl | hmem'
    · exact foldl_outer_mono nm rest _ kw (foldl_kwStep_self nm a.name a.keywords b kw hkw hm)
    · exact ih _ a kw hmem' hkw hm

theorem foldl_outer_sound (nm : List Char) (taxonomy : List AspectDefinition) :
    ∀ b p, taxonomy.foldl
        (fun best aspect => aspect.keywords.foldl (kwStep nm aspect.name) best) b = some p →
      b = some p ∨ ∃ a ∈ taxonomy, p.1 = a.name ∧ p.2 ∈ a.keywords ∧
        wholeWordMatch (p.2.map Char.toLower) nm = true := by
  induction taxonomy with
  | nil => intro b p hp; exact Or.inl hp
  | cons a0 rest ih =>
    intro b p hp
    rcases ih _ p hp with h1 | ⟨a, ha, hn, hkw, hm⟩
    · rcases foldl_kwStep_sound nm a0.name a0.keywords b p h1 with h2 | ⟨hn, hkw, hm⟩
      · exact Or.inl h2
      · exact Or.inr ⟨a0, List.mem_cons_self _ _, hn, hkw, hm⟩
    · exact Or.inr ⟨a, List.mem_cons_of_mem a0 ha, hn, hkw, hm⟩

/-- **C1.** If any keyword of any aspect whole-word-matches the clause
(case-insensitively), `detectAspect` returns an aspect and trigger from
the taxonomy such that the trigger matches and is at least as long as
every matching keyword of every aspect; with no matching keyword it
returns `none` and no segment is produced. -/
theorem detectAspect_longest_match (clause : List Char) (taxonomy : List AspectDefinition) :
    (∀ n tr, detectAspect clause taxonomy = some (n, tr) →
      (∃ a ∈ taxonomy, n = a.name ∧ tr ∈ a.keywords) ∧
      wholeWordMatch (tr.map Char.toLower) (clause.map Char.toLower) = true ∧
      (∀ a ∈ taxonomy, ∀ kw ∈ a.keywords,
        wholeWordMatch (kw.map Char.toLower) (clause.map Char.toLower) = true →
        kw.length ≤ tr.length)) ∧
    (detectAspect clause taxonomy = none →
      ∀ a ∈ taxonomy, ∀ kw ∈ a.keywords,
        wholeWordMatch (kw.map Char.toLower) (clause.map Char.toLower) = false) := by
  constructor
  · intro n tr h
    rcases foldl_outer_sound (clause.map Char.toLower) taxonomy none (n, tr) h with
      h' | ⟨a, ha, hn, hkw, hm⟩
    · exact absurd h' (by simp)
    · refine ⟨⟨a, ha, hn, hkw⟩, hm, ?_⟩
      intro a' ha' kw hkw' hmatch
      obtain ⟨p, hp, hle⟩ := foldl_outer_self (clause.map Char.toLower) taxonomy none a' kw
        ha' hkw' hmatch
      rw [show detectAspect clause taxonomy = taxonomy.foldl
        (fun best aspect => aspect.keywords.foldl
          (kwStep (clause.map Char.toLower) aspect.name) best) none from rfl] at h
      rw [h] at hp
      obtain rfl := (Option.some.inj hp)
      exact hle
  · intro h a ha kw hkw
    by_contra hm
    rw [Bool.not_eq_false] at hm
    obtain ⟨p, hp, -⟩ := foldl_outer_self (clause.map Char.toLower) taxonomy none a kw
      ha hkw hm
    rw [show detectAspect clause taxonomy = taxonomy.foldl
      (fun best aspect => aspect.keywords.foldl
        (kwStep (clause.map Char.toLower) aspect.name) best) none from rfl] at h
    rw [h] at hp
    exact Option.noConfusion hp

/-- The two-aspect taxonomy of the specification's Scenario E. -/
def scenarioETaxonomy : List AspectDefinition :=
  [⟨"General", "", ["service".data]⟩, ⟨"Support", "", ["customer service".data]⟩]

/-- Witness for C1: on "Great customer service here" with Scenario E's
taxonomy, the returned trigger is the longer keyword "customer service". -/
theorem detectAspect_longest_match_witness :
    (∃ a ∈ scenarioETaxonomy, "Support" = a.name ∧ "customer service".data ∈ a.keywords) ∧
    wholeWordMatch ("customer service".data.map Char.toLower)
      ("Great customer service here".data.map Char.toLower) = true ∧
    (∀ a ∈ scenarioETaxonomy, ∀ kw ∈ a.keywords,
      wholeWordMatch (kw.map Char.toLower)
        ("Great customer service here".data.map Char.toLower) = true →
      kw.length ≤ ("customer service".data).length) :=
  (detectAspect_longest_match "Great customer service here".data scenarioETaxonomy).1
    "Support" "customer service".data (by decide)

/-! ## C5 and C6: the signal extractor -/

theorem insertByKeyDesc_perm {α β : Type} [LinearOrder β] (key : α → β) (a : α)
    (l : List α) : List.Perm (insertByKeyDesc key a l) (a :: l) := by
  induction l with
  | nil => rfl
  | cons b rest ih =>
    unfold insertByKeyDesc
    split_ifs with h
    · exact ((ih).cons b).trans (List.Perm.swap a b rest)
    · rfl

theorem sortByKeyDesc_perm {α β : Type} [LinearOrder β] (key : α → β) (l : List α) :
    List.Perm (sortByKeyDesc key l) l := by
  suffices h : ∀ acc : List α,
      List.Perm (l.foldl (fun acc a => insertByKeyDesc key a acc) acc) (l ++ acc) by
    simpa using h []
  induction l with
  | nil => intro acc; simp
  | cons a rest ih =>
    intro acc
    rw [show (a :: rest).foldl (fun acc a => insertByKeyDesc key a acc) acc
        = rest.foldl (fun acc a => insertByKeyDesc key a acc) (insertByKeyDesc key a acc)
      from rfl]
    refine (ih (insertByKeyDesc key a acc)).trans ?_
    refine (List.Perm.append_left rest (insertByKeyDesc_perm key a acc)).trans ?_
    exact List.perm_middle

theorem mem_sortByKeyDesc {α β : Type} [LinearOrder β] {key : α → β} {l : List α} {a : α} :
    a ∈ sortByKeyDesc key l ↔ a ∈ l :=
  (sortByKeyDesc_perm key l).mem_iff

theorem mem_setAdd {α : Type} [DecidableEq α] {l : List α} {x y : α} :
    y ∈ setAdd l x ↔ y ∈ l ∨ y = x := by
  unfold setAdd
  split_ifs with h
  · constructor
    · exact Or.inl
    · rintro (hy | rfl)
      · exact hy
      · exact h
  · simp

theorem mem_dedupFirst {α : Type} [DecidableEq α] {l : List α} {x : α} :
    x ∈ dedupFirst l ↔ x ∈ l := by
  suffices h : ∀ acc : List α, x ∈ l.foldl setAdd acc ↔ x ∈ acc ∨ x ∈ l by
    unfold dedupFirst
    simpa using h []
  induction l with
  | nil => intro acc; simp
  | cons a rest ih =>
    intro acc
    rw [List.foldl_cons, ih (setAdd acc a), mem_setAdd]
    constructor
    · rintro ((h | rfl) | h)
      · exact Or.inl h
      · exact Or.inr (List.mem_cons_self _ _)
      · exact Or.inr (List.mem_cons_of_mem a h)
    · rintro (h | h)
      · exact Or.inl (Or.inl h)
      · rcases List.mem_cons.mp h with rfl | h'
        · exact Or.inl (Or.inr rfl)
        · exact Or.inr h'

/-- Members of the extractor output come from the merged candidate list. -/
theorem mem_extractTopFreqWords {polarity : List Char → Option ℚ} {reviews : List ReviewInput}
    {limit : ℕ} {e : ScoredEntry} (h : e ∈ extractTopFreqWords polarity reviews limit) :
    e ∈ phraseEntries reviews ∨ e ∈ wordEntries polarity reviews := by
  unfold extractTopFreqWords at h
  have := mem_sortByKeyDesc.mp (List.take_subset limit _ h)
  exact List.mem_append.mp this

theorem wordEntries_not_phrase {polarity : List Char → Option ℚ} {reviews : List ReviewInput}
    {e : ScoredEntry} (h : e ∈ wordEntries polarity reviews) : e.phrase = false := by
  unfold wordEntries at h
  obtain ⟨w, -, hw⟩ := List.mem_filterMap.mp h
  split_ifs at hw
  obtain rfl := Option.some.inj hw
  rfl

theorem mem_phraseEntries {reviews : List ReviewInput} {e : ScoredEntry}
    (h : e ∈ phraseEntries reviews) :
    ∃ p, p ∈ bigramKeys reviews ∧ 3 ≤ bigramCount reviews p ∧
      4 < bigramRatio reviews p ∧
      e = ⟨p.1 ++ ' ' :: p.2, bigramCount reviews p, bigramRatio reviews p, true⟩ := by
  unfold phraseEntries at h
  obtain ⟨p, hp, he⟩ := List.mem_filterMap.mp h
  split_ifs at he with h1 h2
  obtain rfl := Option.some.inj he
  exact ⟨p, hp, by omega, h2, rfl⟩

/-- Every token of every review is whitespace-free (in particular it
contains no space). -/
theorem token_no_space {reviews : List ReviewInput} {w : List Char}
    (h : ∃ r ∈ reviews, w ∈ tokensOf r.text) : ' ' ∉ w := by
  obtain ⟨r, -, hw⟩ := h
  intro hsp
  have := (tokensOf_facts r.text w hw).2 ' ' hsp
  exact absurd this (by decide)

theorem mem_unigramKeys {reviews : List ReviewInput} {w : List Char}
    (h : w ∈ unigramKeys reviews) : ∃ r ∈ reviews, w ∈ tokensOf r.text := by
  unfold unigramKeys at h
  have := mem_dedupFirst.mp h
  simp only [List.mem_flatten, List.mem_map] at this
  obtain ⟨-, ⟨r, hr, rfl⟩, hw⟩ := this
  exact ⟨r, hr, hw⟩

theorem mem_bigramKeys {reviews : List ReviewInput} {p : List Char × List Char}
    (h : p ∈ bigramKeys reviews) :
    (∃ r ∈ reviews, p.1 ∈ tokensOf r.text) ∧ (∃ r ∈ reviews, p.2 ∈ tokensOf r.text) := by
  unfold bigramKeys at h
  have := mem_dedupFirst.mp h
  simp only [List.mem_flatten, List.mem_map] at this
  obtain ⟨-, ⟨r, hr, rfl⟩, hp⟩ := this
  unfold bigramsOf at hp
  have hzip := List.mem_filter.mp hp |>.1
  have := List.of_mem_zip hzip
  exact ⟨⟨r, hr, this.1⟩, ⟨r, hr, (List.tail_sublist _).subset this.2⟩⟩

/-- Unique decomposition of a space-joined bigram whose halves are
space-free. -/
theorem space_join_inj {w1 w2 u1 u2 : List Char} (hw1 : ' ' ∉ w1) (hu1 : ' ' ∉ u1)
    (h : w1 ++ ' ' :: w2 = u1 ++ ' ' :: u2) : w1 = u1 ∧ w2 = u2 := by
  induction w1 generalizing u1 with
  | nil =>
    cases u1 with
    | nil =>
      simp only [List.nil_append, List.cons.injEq] at h
      exact ⟨rfl, h.2⟩
    | cons b u1' =>
      exfalso
      simp only [List.nil_append, List.cons_append, List.cons.injEq] at h
      apply hu1
      rw [← h.1]
      exact List.mem_cons_self _ _
  | cons a w1' ih =>
    cases u1 with
    | nil =>
      exfalso
      simp only [List.nil_append, List.cons_append, List.cons.injEq] at h
      apply hw1
      rw [h.1]
      exact List.mem_cons_self _ _
    | cons b u1' =>
      simp only [List.cons_append, List.cons.injEq] at h
      obtain ⟨rfl, h2⟩ := h
      obtain ⟨rfl, rfl⟩ := ih (fun hc => hw1 (List.mem_cons_of_mem a hc))
        (fun hc => hu1 (List.mem_cons_of_mem a hc)) h2
      exact ⟨rfl, rfl⟩

theorem logb2_gt {q : ℝ} {a b : ℕ} (_hq : 0 < q) (hb : 0 < b)
    (h : (2 : ℝ) ^ a < q ^ b) : (a : ℝ) / b < Real.logb 2 q := by
  have hlog : (a : ℝ) * Real.log 2 < (b : ℝ) * Real.log q := by
    have := Real.log_lt_log (by positivity) h
    rwa [Real.log_pow, Real.log_pow] at this
  have h2 : (0 : ℝ) < Real.log 2 := Real.log_pos (by norm_num)
  rw [Real.logb, div_lt_div_iff₀ (by exact_mod_cast hb) h2]
  linarith [hlog]

theorem logb2_lt {q : ℝ} {a b : ℕ} (hq : 0 < q) (hb : 0 < b)
    (h : q ^ b < (2 : ℝ) ^ a) : Real.logb 2 q < (a : ℝ) / b := by
  have hlog : (b : ℝ) * Real.log q < (a : ℝ) * Real.log 2 := by
    have := Real.log_lt_log (by positivity) h
    rwa [Real.log_pow, Real.log_pow] at this
  have h2 : (0 : ℝ) < Real.log 2 := Real.log_pos (by norm_num)
  rw [Real.logb, div_lt_div_iff₀ h2 (by exact_mod_cast hb)]
  linarith [hlog]

/-- **C5.** A bigram appears among the extractor's scored entries only if
its raw count is at least the noise floor 3 and its PMI
`log2(P(w1,w2)/(P(w1)P(w2)))` exceeds 2, with final score
`count * PMI`; and a bigram occurring only twice never appears in the
WordStat output. -/
theorem extractTopFreqWords_bigram_policy (polarity : List Char → Option ℚ)
    (reviews : List ReviewInput) (limit : ℕ) :
    (∀ e ∈ extractTopFreqWords polarity reviews limit, e.phrase = true →
      ∃ w1 w2, e.word = w1 ++ ' ' :: w2 ∧
        3 ≤ bigramCount reviews (w1, w2) ∧
        e.cnt = bigramCount reviews (w1, w2) ∧
        2 < Real.logb 2 ((bigramRatio reviews (w1, w2) : ℚ) : ℝ) ∧
        wsScore e = (bigramCount reviews (w1, w2) : ℝ) *
          Real.logb 2 ((bigramRatio reviews (w1, w2) : ℚ) : ℝ)) ∧
    (∀ w1 w2, ' ' ∉ w1 → ' ' ∉ w2 → bigramCount reviews (w1, w2) = 2 →
      ∀ ws ∈ extractTopFreqWordStats polarity reviews limit,
        ws.word ≠ w1 ++ ' ' :: w2) := by
  constructor
  · intro e he hph
    rcases mem_extractTopFreqWords he with hp | hw
    · obtain ⟨p, hpk, hcnt, hratio, rfl⟩ := mem_phraseEntries hp
      refine ⟨p.1, p.2, rfl, hcnt, rfl, ?_, rfl⟩
      have hr4 : (4 : ℝ) < ((bigramRatio reviews (p.1, p.2) : ℚ) : ℝ) := by
        exact_mod_cast hratio
      have h24 : Real.logb 2 4 = 2 := by
        rw [show (4 : ℝ) = (2 : ℝ) ^ (2 : ℕ) by norm_num, Real.logb_pow,
          Real.logb_self_eq_one (by norm_num)]
        norm_num
      have hlt := Real.logb_lt_logb (b := 2) (by norm_num) (by norm_num : (0:ℝ) < 4) hr4
      linarith [hlt, h24.ge, h24.le]
    · rw [wordEntries_not_phrase hw] at hph
      exact absurd hph (by simp)
  · intro w1 w2 hw1 hw2 hcnt2 ws hws hword
    obtain ⟨e, he, rfl⟩ := List.mem_map.mp hws
    rcases mem_extractTopFreqWords he with hp | hw
    · obtain ⟨p, hpk, hcnt, -, rfl⟩ := mem_phraseEntries hp
      have hp1 : ' ' ∉ p.1 := token_no_space (mem_bigramKeys hpk).1
      obtain ⟨h1, h2⟩ := space_join_inj hp1 hw1 hword
      rw [show (w1, w2) = p from by rw [← h1, ← h2]] at hcnt2
      omega
    · unfold wordEntries at hw
      obtain ⟨w, hwk, hsome⟩ := List.mem_filterMap.mp hw
      split_ifs at hsome
      obtain rfl := Option.some.inj hsome
      have : ' ' ∉ w := token_no_space (mem_unigramKeys hwk)
      have hsp : ' ' ∈ w := by
        rw [show (toWordStat ⟨w, unigramCount reviews w,
          ((docFreq reviews w : ℚ) + 1), false⟩).word = w from rfl] at hword
        rw [hword]
        simp
      exact this hsp

/-- The corpus of the C5 witness: the bigram (alpha, beta) occurs exactly
twice, below the noise floor. -/
def alphaBetaReviews : List ReviewInput :=
  [⟨"r1", "alpha beta".data⟩, ⟨"r2", "alpha beta".data⟩, ⟨"r3", "alpha".data⟩]

/-- Witness for C5: in the concrete corpus, the twice-occurring bigram
"alpha beta" is absent from the WordStat output. -/
theorem extractTopFreqWords_bigram_policy_witness :
    (toWordStat ⟨"alpha".data, 3, 4, false⟩).word ≠ "alpha".data ++ ' ' :: "beta".data :=
  (extractTopFreqWords_bigram_policy (fun _ => some 0) alphaBetaReviews 100).2
    "alpha".data "beta".data (by decide) (by decide) (by with_unfolding_all decide)
    (toWordStat ⟨"alpha".data, 3, 4, false⟩)
    (List.mem_map.mpr ⟨⟨"alpha".data, 3, 4, false⟩, by with_unfolding_all decide, rfl⟩)

/-- The corpus of the C6 counterexample: "battery" occurs 3 times across
2 documents (and no bigram or other unigram reaches the noise floor). -/
def batteryReviews : List ReviewInput :=
  [⟨"r1", "battery battery xbox".data⟩, ⟨"r2", "battery xpad".data⟩]

/-- **C6 counterexample.** In the WordStat output, the `count` field of
"battery" is `Math.round(score) = round(3 * log2 3) = 5`, not the token's
occurrence count 3: `count` is the rounded score, not integer
occurrences. -/
theorem wordStat_count_not_occurrences_cex :
    extractTopFreqWords (fun _ => some 0) batteryReviews 100 =
      [⟨"battery".data, 3, 3, false⟩] ∧
    unigramCount batteryReviews "battery".data = 3 ∧
    (toWordStat ⟨"battery".data, 3, 3, false⟩).count = 5 ∧ (5 : ℤ) ≠ (3 : ℤ) := by
  refine ⟨by with_unfolding_all decide, by with_unfolding_all decide, ?_, by decide⟩
  show round (wsScore ⟨"battery".data, 3, 3, false⟩) = 5
  have hsc : wsScore ⟨"battery".data, 3, 3, false⟩ = 3 * Real.logb 2 3 := by
    unfold wsScore
    norm_num
  rw [hsc]
  have hlo : (3 : ℝ)/2 < Real.logb 2 3 := by
    have := logb2_gt (q := 3) (a := 3) (b := 2) (by norm_num) (by norm_num) (by norm_num)
    simpa using this
  have hhi : Real.logb 2 3 < (5 : ℝ)/3 := by
    have := logb2_lt (q := 3) (a := 5) (b := 3) (by norm_num) (by norm_num) (by norm_num)
    simpa using this
  rw [round_eq]
  refine Int.floor_eq_iff.mpr ⟨?_, ?_⟩ <;> push_cast <;> linarith

/-- **C6 (amended).** The `count` field of every output WordStat equals
the score rounded to the nearest integer (`Math.round(p.score)`), not the
token's occurrence count; in particular it differs from the float score by
at most 1/2. -/
theorem wordStat_count_rounds_score (polarity : List Char → Option ℚ)
    (reviews : List ReviewInput) (limit : ℕ) :
    ∀ w ∈ extractTopFreqWordStats polarity reviews limit,
      w.count = round w.score ∧ |(w.count : ℝ) - w.score| ≤ 1/2 := by
  intro w hw
  obtain ⟨e, he, rfl⟩ := List.mem_map.mp hw
  refine ⟨rfl, ?_⟩
  rw [show (toWordStat e).count = round (wsScore e) from rfl,
    show (toWordStat e).score = wsScore e from rfl, abs_sub_comm]
  exact abs_sub_round (wsScore e)

/-- Witness for C6 (amended) at the concrete battery corpus. -/
theorem wordStat_count_rounds_score_witness :
    (toWordStat ⟨"battery".data, 3, 3, false⟩).count =
      round (toWordStat ⟨"battery".data, 3, 3, false⟩).score ∧
    |((toWordStat ⟨"battery".data, 3, 3, false⟩).count : ℝ) -
      (toWordStat ⟨"battery".data, 3, 3, false⟩).score| ≤ 1/2 :=
  wordStat_count_rounds_score (fun _ => some 0) batteryReviews 100 _
    (List.mem_map.mpr ⟨⟨"battery".data, 3, 3, false⟩, by with_unfolding_all decide, rfl⟩)

/-! ## C2, C7, C10: the aggregation pass -/

theorem lookup_mapSet (m : AggMap) (k : String) (v : AggEntry) (k' : String) :
    (mapSet m k v).lookup k' = if k' = k then some v else m.lookup k' := by
  induction m with
  | nil =>
    by_cases h : k' = k
    · simp [mapSet, List.lookup, h]
    · have hb : (k' == k) = false := by simpa using h
      simp [mapSet, List.lookup, hb, h]
  | cons kv rest ih =>
    obtain ⟨k0, v0⟩ := kv
    by_cases h0 : k0 = k
    · rw [show mapSet ((k0, v0) :: rest) k v = (k, v) :: rest from by simp [mapSet, h0]]
      by_cases h1 : k' = k
      · simp [List.lookup, h1]
      · have hb : (k' == k) = false := by simpa using h1
        have hb0 : (k' == k0) = false := by
          rw [h0]
          exact hb
        simp [List.lookup, hb, hb0, h1]
    · rw [show mapSet ((k0, v0) :: rest) k v = (k0, v0) :: mapSet rest k v from by
        simp [mapSet, h0]]
      by_cases h1 : k' = k0
      · have hne : k' ≠ k := by
          rw [h1]
          exact h0
        have hb : (k' == k0) = true := by simpa using h1
        simp [List.lookup, hb, hne]
      · have hb : (k' == k0) = false := by simpa using h1
        simp [List.lookup, hb, ih]

theorem lookup_mapUpdate (m : AggMap) (k : String) (f : AggEntry → AggEntry) (k' : String) :
    (mapUpdate m k f).lookup k' = if k' = k then (m.lookup k').map f else m.lookup k' := by
  induction m with
  | nil => simp [mapUpdate, List.lookup]
  | cons kv rest ih =>
    obtain ⟨k0, v0⟩ := kv
    by_cases h0 : k0 = k
    · rw [show mapUpdate ((k0, v0) :: rest) k f = (k0, f v0) :: rest from by
        simp [mapUpdate, h0]]
      by_cases h1 : k' = k0
      · have hb : (k' == k0) = true := by simpa using h1
        have h1k : k' = k := h1.trans h0
        have hbk : (k == k0) = true := by simp [h0]
        simp [List.lookup, hb, h1k, hbk]
      · have hb : (k' == k0) = false := by simpa using h1
        by_cases h1k : k' = k
        · exact absurd (h1k.trans h0.symm) h1
        · simp [List.lookup, hb, h1k]
    · rw [show mapUpdate ((k0, v0) :: rest) k f = (k0, v0) :: mapUpdate rest k f from by
        simp [mapUpdate, h0]]
      by_cases h1 : k' = k0
      · have hne : k' ≠ k := by
          rw [h1]
          exact h0
        have hb : (k' == k0) = true := by simpa using h1
        simp [List.lookup, hb, hne]
      · have hb : (k' == k0) = false := by simpa using h1
        simp [List.lookup, hb, ih]

theorem keys_mapUpdate (m : AggMap) (k : String) (f : AggEntry → AggEntry) :
    (mapUpdate m k f).map Prod.fst = m.map Prod.fst := by
  induction m with
  | nil => rfl
  | cons kv rest ih =>
    obtain ⟨k0, v0⟩ := kv
    simp only [mapUpdate]
    split_ifs with h0
    · simp [h0]
    · simp [ih]

theorem mem_keys_mapSet (m : AggMap) (k : String) (v : AggEntry) (k' : String) :
    k' ∈ (mapSet m k v).map Prod.fst ↔ k' ∈ m.map Prod.fst ∨ k' = k := by
  induction m with
  | nil => simp [mapSet]
  | cons kv rest ih =>
    obtain ⟨k0, v0⟩ := kv
    simp only [mapSet]
    split_ifs with h0
    · subst h0
      simp only [List.map_cons, List.mem_cons]
      constructor
      · rintro (rfl | h)
        · exact Or.inr rfl
        · exact Or.inl (Or.inr h)
      · rintro ((rfl | h) | rfl)
        · exact Or.inl rfl
        · exact Or.inr h
        · exact Or.inl rfl
    · simp only [List.map_cons, List.mem_cons, ih]
      tauto

theorem nodup_keys_mapSet (m : AggMap) (k : String) (v : AggEntry)
    (h : (m.map Prod.fst).Nodup) : ((mapSet m k v).map Prod.fst).Nodup := by
  induction m with
  | nil => simp [mapSet]
  | cons kv rest ih =>
    obtain ⟨k0, v0⟩ := kv
    simp only [List.map_cons, List.nodup_cons] at h
    simp only [mapSet]
    split_ifs with h0
    · subst h0
      simp only [List.map_cons, List.nodup_cons]
      exact h
    · simp only [List.map_cons, List.nodup_cons]
      refine ⟨?_, ih h.2⟩
      rw [mem_keys_mapSet]
      rintro (hc | rfl)
      · exact h.1 hc
      · exact h0 rfl

theorem initAggs_keys_mem (taxonomy : List AspectDefinition) (k : String) :
    k ∈ (initAggs taxonomy).map Prod.fst ↔ k ∈ taxonomy.map AspectDefinition.name := by
  suffices h : ∀ m : AggMap,
      k ∈ ((taxonomy.foldl (fun m a =>
        mapSet m a.name ⟨0, [], 0, 0, 0, 0, a.keywords, []⟩) m).map Prod.fst) ↔
      k ∈ m.map Prod.fst ∨ k ∈ taxonomy.map AspectDefinition.name by
    unfold initAggs
    simpa using h []
  induction taxonomy with
  | nil => intro m; simp
  | cons a rest ih =>
    intro m
    simp only [List.foldl_cons, ih, mem_keys_mapSet, List.map_cons, List.mem_cons]
    tauto

theorem initAggs_keys_nodup (taxonomy : List AspectDefinition) :
    ((initAggs taxonomy).map Prod.fst).Nodup := by
  suffices h : ∀ m : AggMap, (m.map Prod.fst).Nodup →
      ((taxonomy.foldl (fun m a =>
        mapSet m a.name ⟨0, [], 0, 0, 0, 0, a.keywords, []⟩) m).map Prod.fst).Nodup by
    exact h [] (by simp)
  induction taxonomy with
  | nil => intro m hm; exact hm
  | cons a rest ih =>
    intro m hm
    exact ih _ (nodup_keys_mapSet m a.name _ hm)

theorem initAggs_lookup_zero (taxonomy : List AspectDefinition) (k : String) (g : AggEntry)
    (h : (initAggs taxonomy).lookup k = some g) :
    g.count = 0 ∧ g.reviewIds = [] ∧ g.scoreSum = 0 ∧ g.posCount = 0 ∧
    g.negCount = 0 ∧ g.neuCount = 0 ∧ g.uniqueTriggers = [] := by
  suffices hs : ∀ m : AggMap,
      (∀ k' g', m.lookup k' = some g' → g'.count = 0 ∧ g'.reviewIds = [] ∧ g'.scoreSum = 0 ∧
        g'.posCount = 0 ∧ g'.negCount = 0 ∧ g'.neuCount = 0 ∧ g'.uniqueTriggers = []) →
      ∀ k' g', (taxonomy.foldl (fun m a =>
          mapSet m a.name ⟨0, [], 0, 0, 0, 0, a.keywords, []⟩) m).lookup k' = some g' →
        g'.count = 0 ∧ g'.reviewIds = [] ∧ g'.scoreSum = 0 ∧ g'.posCount = 0 ∧
        g'.negCount = 0 ∧ g'.neuCount = 0 ∧ g'.uniqueTriggers = [] by
    exact hs [] (by intro k' g' hg; simp [List.lookup] at hg) k g h
  clear h
  induction taxonomy with
  | nil => intro m hm; exact hm
  | cons a rest ih =>
    intro m hm
    refine ih (mapSet m a.name ⟨0, [], 0, 0, 0, 0, a.keywords, []⟩) ?_
    intro k' g' hg
    rw [lookup_mapSet] at hg
    split_ifs at hg with hk
    · obtain rfl := Option.some.inj hg
      exact ⟨rfl, rfl, rfl, rfl, rfl, rfl, rfl⟩
    · exact hm k' g' hg

theorem lookup_none_iff_not_mem_keys (m : AggMap) (k : String) :
    m.lookup k = none ↔ k ∉ m.map Prod.fst := by
  induction m with
  | nil => simp [List.lookup]
  | cons kv rest ih =>
    obtain ⟨k0, v0⟩ := kv
    simp only [List.lookup, List.map_cons, List.mem_cons]
    by_cases h : k = k0
    · subst h
      simp
    · have : (k == k0) = false := by simpa using h
      simp [this, ih, h]

theorem lookup_of_mem_nodup (m : AggMap) (k : String) (v : AggEntry)
    (hnd : (m.map Prod.fst).Nodup) (hmem : (k, v) ∈ m) : m.lookup k = some v := by
  induction m with
  | nil => simp at hmem
  | cons kv rest ih =>
    obtain ⟨k0, v0⟩ := kv
    simp only [List.map_cons, List.nodup_cons] at hnd
    rcases List.mem_cons.mp hmem with heq | hmem'
    · have h1 : k = k0 := congrArg Prod.fst heq
      have h2 : v = v0 := congrArg Prod.snd heq
      rw [← h1, ← h2]
      simp [List.lookup]
    · have hk : k ≠ k0 := by
        intro rfl
        exact hnd.1 (List.mem_map.mpr ⟨(k, v), hmem', rfl⟩)
      have : (k == k0) = false := by simpa using hk
      simp only [List.lookup, this]
      exact ih hnd.2 hmem'

theorem mem_of_lookup (m : AggMap) (k : String) (v : AggEntry)
    (h : m.lookup k = some v) : (k, v) ∈ m := by
  induction m with
  | nil => simp [List.lookup] at h
  | cons kv rest ih =>
    obtain ⟨k0, v0⟩ := kv
    simp only [List.lookup] at h
    by_cases hk : k = k0
    · subst hk
      simp only [beq_self_eq_true] at h
      obtain rfl := Option.some.inj h
      exact List.mem_cons_self _ _
    · have : (k == k0) = false := by simpa using hk
      rw [this] at h
      exact List.mem_cons_of_mem _ (ih h)

/-- All (review id, matched segment) pairs of the run, in processing
order. -/
def matchedPairs (polarity : List Char → Option ℚ) (taxonomy : List AspectDefinition)
    (reviews : List ReviewInput) : List (String × AspectSegment) :=
  (reviews.map (fun r =>
    (segsOfReview polarity taxonomy r.text).map (fun s => (r.id, s)))).flatten

/-- The pairs of `matchedPairs` whose segment is tagged with a given
aspect name. -/
def aspectPairs (polarity : List Char → Option ℚ) (taxonomy : List AspectDefinition)
    (reviews : List ReviewInput) (name : String) : List (String × AspectSegment) :=
  (matchedPairs polarity taxonomy reviews).filter (fun p => p.2.aspect_category = name)

theorem lookup_applySeg (rid : String) (m : AggMap) (seg : AspectSegment) (k : String) :
    (applySeg rid m seg).lookup k =
      if seg.aspect_category = k then (m.lookup k).map (tallySeg rid seg)
      else m.lookup k := by
  unfold applySeg
  rw [lookup_mapUpdate]
  by_cases h : seg.aspect_category = k
  · rw [if_pos (show k = seg.aspect_category from h.symm), if_pos h]
  · rw [if_neg (fun hc => h hc.symm), if_neg h]

theorem lookup_foldl_applyPairs (pairs : List (String × AspectSegment)) :
    ∀ (m : AggMap) (k : String),
      (pairs.foldl (fun m p => applySeg p.1 m p.2) m).lookup k =
        (m.lookup k).map (fun g =>
          (pairs.filter (fun p => p.2.aspect_category = k)).foldl
            (fun g' p => tallySeg p.1 p.2 g') g) := by
  induction pairs with
  | nil =>
    intro m k
    show m.lookup k = (m.lookup k).map (fun g =>
      (([] : List (String × AspectSegment)).foldl (fun g' p => tallySeg p.1 p.2 g') g))
    cases h : m.lookup k with
    | none => rfl
    | some g => rfl
  | cons p rest ih =>
    intro m k
    rw [List.foldl_cons, ih (applySeg p.1 m p.2) k]
    rw [lookup_applySeg]
    by_cases h : p.2.aspect_category = k
    · rw [if_pos h, Option.map_map]
      congr 1
      funext g
      show (rest.filter (fun p => p.2.aspect_category = k)).foldl
          (fun g' p => tallySeg p.1 p.2 g') (tallySeg p.1 p.2 g) =
        ((p :: rest).filter (fun p => p.2.aspect_category = k)).foldl
          (fun g' p => tallySeg p.1 p.2 g') g
      rw [List.filter_cons, if_pos (by simpa using h), List.foldl_cons]
    · rw [if_neg h]
      rw [show (p :: rest).filter (fun p => p.2.aspect_category = k) =
        rest.filter (fun p => p.2.aspect_category = k) from by
        rw [List.filter_cons, if_neg (by simpa using h)]]

/-- Field-wise evaluation of one `tallySeg`. -/
theorem tallySeg_fields (rid : String) (seg : AspectSegment) (g : AggEntry) :
    (tallySeg rid seg g).count = g.count + 1 ∧
    (tallySeg rid seg g).scoreSum = g.scoreSum + seg.sentiment_score ∧
    (tallySeg rid seg g).posCount = g.posCount +
      (if seg.sentiment = SentimentLabel.POSITIVE then 1 else 0) ∧
    (tallySeg rid seg g).negCount = g.negCount +
      (if seg.sentiment = SentimentLabel.NEGATIVE then 1 else 0) ∧
    (tallySeg rid seg g).neuCount = g.neuCount +
      (if seg.sentiment ≠ SentimentLabel.POSITIVE ∧ seg.sentiment ≠ SentimentLabel.NEGATIVE
        then 1 else 0) ∧
    (tallySeg rid seg g).reviewIds = setAdd g.reviewIds rid ∧
    (tallySeg rid seg g).uniqueTriggers = setAdd g.uniqueTriggers seg.trigger_word ∧
    (tallySeg rid seg g).keywords = g.keywords := by
  cases h : seg.sentiment <;> simp [tallySeg, h]

/-- Field-wise evaluation of a fold of `tallySeg` over a pair list. -/
theorem tally_foldl_fields (pairs : List (String × AspectSegment)) :
    ∀ g : AggEntry,
      (pairs.foldl (fun g' p => tallySeg p.1 p.2 g') g).count = g.count + pairs.length ∧
      (pairs.foldl (fun g' p => tallySeg p.1 p.2 g') g).scoreSum =
        g.scoreSum + (pairs.map (fun p => p.2.sentiment_score)).sum ∧
      (pairs.foldl (fun g' p => tallySeg p.1 p.2 g') g).posCount =
        g.posCount + (pairs.filter
          (fun p => p.2.sentiment = SentimentLabel.POSITIVE)).length ∧
      (pairs.foldl (fun g' p => tallySeg p.1 p.2 g') g).negCount =
        g.negCount + (pairs.filter
          (fun p => p.2.sentiment = SentimentLabel.NEGATIVE)).length ∧
      (pairs.foldl (fun g' p => tallySeg p.1 p.2 g') g).neuCount =
        g.neuCount + (pairs.filter
          (fun p => p.2.sentiment ≠ SentimentLabel.POSITIVE ∧
            p.2.sentiment ≠ SentimentLabel.NEGATIVE)).length ∧
      (pairs.foldl (fun g' p => tallySeg p.1 p.2 g') g).reviewIds =
        (pairs.map Prod.fst).foldl setAdd g.reviewIds ∧
      (pairs.foldl (fun g' p => tallySeg p.1 p.2 g') g).uniqueTriggers =
        (pairs.map (fun p => p.2.trigger_word)).foldl setAdd g.uniqueTriggers := by
  induction pairs with
  | nil => intro g; simp
  | cons p rest ih =>
    intro g
    obtain ⟨hc, hs, hp, hn, hu, hr, ht, hk⟩ := tallySeg_fields p.1 p.2 g
    obtain ⟨ic, is', ip, in', iu, ir, it⟩ := ih (tallySeg p.1 p.2 g)
    refine ⟨?_, ?_, ?_, ?_, ?_, ?_, ?_⟩
    · rw [List.foldl_cons, ic, hc, List.length_cons]
      omega
    · rw [List.foldl_cons, is', hs, List.map_cons, List.sum_cons]
      ring
    · rw [List.foldl_cons, ip, hp, List.filter_cons]
      by_cases hps : p.2.sentiment = SentimentLabel.POSITIVE
      · have hd : decide (p.2.sentiment = SentimentLabel.POSITIVE) = true := by
          simpa using hps
        rw [hd, if_pos rfl, if_pos hps, List.length_cons]
        omega
      · have hd : decide (p.2.sentiment = SentimentLabel.POSITIVE) = false := by
          simpa using hps
        rw [hd, if_neg (show ¬(false = true) by decide), if_neg hps]
        omega
    · rw [List.foldl_cons, in', hn, List.filter_cons]
      by_cases hps : p.2.sentiment = SentimentLabel.NEGATIVE
      · have hd : decide (p.2.sentiment = SentimentLabel.NEGATIVE) = true := by
          simpa using hps
        rw [hd, if_pos rfl, if_pos hps, List.length_cons]
        omega
      · have hd : decide (p.2.sentiment = SentimentLabel.NEGATIVE) = false := by
          simpa using hps
        rw [hd, if_neg (show ¬(false = true) by decide), if_neg hps]
        omega
    · rw [List.foldl_cons, iu, hu, List.filter_cons]
      by_cases hps : p.2.sentiment ≠ SentimentLabel.POSITIVE ∧
          p.2.sentiment ≠ SentimentLabel.NEGATIVE
      · have hd : decide (p.2.sentiment ≠ SentimentLabel.POSITIVE ∧
            p.2.sentiment ≠ SentimentLabel.NEGATIVE) = true := by simpa using hps
        rw [hd, if_pos rfl, if_pos hps, List.length_cons]
        omega
      · have hd : decide (p.2.sentiment ≠ SentimentLabel.POSITIVE ∧
            p.2.sentiment ≠ SentimentLabel.NEGATIVE) = false := by simpa using hps
        rw [hd, if_neg (show ¬(false = true) by decide), if_neg hps]
        omega
    · rw [List.foldl_cons, ir, hr, List.map_cons, List.foldl_cons]
    · rw [List.foldl_cons, it, ht, List.map_cons, List.foldl_cons]

/-- The aggregates component of the review loop equals the pair-wise fold
over all matched pairs. -/
theorem aggs_eq_foldl_pairs (polarity : List Char → Option ℚ)
    (taxonomy : List AspectDefinition) (reviews : List ReviewInput) :
    ∀ (st : List AnalyzedReview × AggMap),
      (reviews.foldl (processReview polarity taxonomy) st).2 =
        (matchedPairs polarity taxonomy reviews).foldl
          (fun m p => applySeg p.1 m p.2) st.2 := by
  induction reviews with
  | nil => intro st; rfl
  | cons r rest ih =>
    intro st
    rw [List.foldl_cons, ih (processReview polarity taxonomy st r)]
    rw [show matchedPairs polarity taxonomy (r :: rest) =
      ((segsOfReview polarity taxonomy r.text).map (fun s => (r.id, s))) ++
        matchedPairs polarity taxonomy rest from by
      simp [matchedPairs]]
    rw [List.foldl_append]
    congr 1
    show (segsOfReview polarity taxonomy r.text).foldl (applySeg r.id) st.2 =
      ((segsOfReview polarity taxonomy r.text).map (fun s => (r.id, s))).foldl
        (fun m p => applySeg p.1 m p.2) st.2
    rw [List.foldl_map]

theorem setAdd_nodup {α : Type} [DecidableEq α] {l : List α} (h : l.Nodup) (x : α) :
    (setAdd l x).Nodup := by
  unfold setAdd
  split_ifs with hx
  · exact h
  · refine List.Nodup.append h (List.nodup_singleton x) ?_
    intro a ha hax
    rw [List.mem_singleton] at hax
    subst hax
    exact hx ha

theorem mem_foldl_setAdd {α : Type} [DecidableEq α] (l : List α) :
    ∀ (acc : List α) (x : α), x ∈ l.foldl setAdd acc ↔ x ∈ acc ∨ x ∈ l := by
  induction l with
  | nil => intro acc x; simp
  | cons a rest ih =>
    intro acc x
    rw [List.foldl_cons, ih (setAdd acc a), mem_setAdd, List.mem_cons]
    tauto

theorem nodup_foldl_setAdd {α : Type} [DecidableEq α] (l : List α) :
    ∀ acc : List α, acc.Nodup → (l.foldl setAdd acc).Nodup := by
  induction l with
  | nil => intro acc h; exact h
  | cons a rest ih =>
    intro acc h
    exact ih (setAdd acc a) (setAdd_nodup h a)

theorem length_foldl_setAdd_nil {α : Type} [DecidableEq α] (l : List α) :
    (l.foldl setAdd []).length = l.dedup.length := by
  have h1 : (l.foldl setAdd []).Nodup := nodup_foldl_setAdd l [] (by simp)
  have h3 : (l.foldl setAdd []).toFinset = l.dedup.toFinset := by
    ext x
    rw [List.mem_toFinset, List.mem_toFinset, mem_foldl_setAdd, List.mem_dedup]
    simp
  calc (l.foldl setAdd []).length = (l.foldl setAdd []).toFinset.card :=
        (List.toFinset_card_of_nodup h1).symm
    _ = l.dedup.toFinset.card := by rw [h3]
    _ = l.dedup.length := List.toFinset_card_of_nodup (l.nodup_dedup)

theorem keys_foldl_applyPairs (pairs : List (String × AspectSegment)) :
    ∀ m : AggMap, (pairs.foldl (fun m p => applySeg p.1 m p.2) m).map Prod.fst =
      m.map Prod.fst := by
  induction pairs with
  | nil => intro m; rfl
  | cons p rest ih =>
    intro m
    rw [List.foldl_cons, ih (applySeg p.1 m p.2)]
    unfold applySeg
    exact keys_mapUpdate m p.2.aspect_category (tallySeg p.1 p.2)

/-- The per-aspect statistics record's fields, characterized by the
matched (review id, segment) pairs of the run. -/
theorem mem_stats_fields (polarity : List Char → Option ℚ) (reviews : List ReviewInput)
    (taxonomy : List AspectDefinition) :
    ∀ s ∈ (performLocalAnalysis polarity reviews taxonomy).2,
      s.count = (aspectPairs polarity taxonomy reviews s.name).length ∧
      s.positive = ((aspectPairs polarity taxonomy reviews s.name).filter
        (fun p => p.2.sentiment = SentimentLabel.POSITIVE)).length ∧
      s.negative = ((aspectPairs polarity taxonomy reviews s.name).filter
        (fun p => p.2.sentiment = SentimentLabel.NEGATIVE)).length ∧
      s.neutral = ((aspectPairs polarity taxonomy reviews s.name).filter
        (fun p => p.2.sentiment ≠ SentimentLabel.POSITIVE ∧
          p.2.sentiment ≠ SentimentLabel.NEGATIVE)).length ∧
      s.net_sentiment = (if 0 < (aspectPairs polarity taxonomy reviews s.name).length
        then ((aspectPairs polarity taxonomy reviews s.name).map
            (fun p => p.2.sentiment_score)).sum /
          ((aspectPairs polarity taxonomy reviews s.name).length : ℚ)
        else 0) ∧
      s.reviewCount =
        ((aspectPairs polarity taxonomy reviews s.name).map Prod.fst).dedup.length ∧
      s.triggerCount = ((aspectPairs polarity taxonomy reviews s.name).map
        (fun p => p.2.trigger_word)).dedup.length := by
  intro s hs
  simp only [performLocalAnalysis] at hs
  rw [mem_sortByKeyDesc] at hs
  obtain ⟨kv, hkv, rfl⟩ := List.mem_map.mp hs
  have hpairs := aggs_eq_foldl_pairs polarity taxonomy reviews ([], initAggs taxonomy)
  have hkeys : ((reviews.foldl (processReview polarity taxonomy)
      ([], initAggs taxonomy)).2).map Prod.fst = (initAggs taxonomy).map Prod.fst := by
    rw [hpairs]
    exact keys_foldl_applyPairs _ _
  have hnd : (((reviews.foldl (processReview polarity taxonomy)
      ([], initAggs taxonomy)).2).map Prod.fst).Nodup := by
    rw [hkeys]
    exact initAggs_keys_nodup taxonomy
  have hlk := lookup_of_mem_nodup _ kv.1 kv.2 hnd (by simpa using hkv)
  rw [hpairs, lookup_foldl_applyPairs] at hlk
  cases h0 : (initAggs taxonomy).lookup kv.1 with
  | none =>
    rw [h0] at hlk
    exact absurd hlk (by simp)
  | some g0 =>
    rw [h0] at hlk
    have hlk' : some ((aspectPairs polarity taxonomy reviews kv.1).foldl
        (fun g' p => tallySeg p.1 p.2 g') g0) = some kv.2 := hlk
    have hkv2 : kv.2 = (aspectPairs polarity taxonomy reviews kv.1).foldl
        (fun g' p => tallySeg p.1 p.2 g') g0 := (Option.some.inj hlk').symm
    obtain ⟨hz1, hz2, hz3, hz4, hz5, hz6, hz7⟩ := initAggs_lookup_zero taxonomy kv.1 g0 h0
    obtain ⟨fc, fs, fp, fn, fu, fr, ft⟩ :=
      tally_foldl_fields (aspectPairs polarity taxonomy reviews kv.1) g0
    have hname : (mkStat kv).name = kv.1 := rfl
    rw [hname]
    refine ⟨?_, ?_, ?_, ?_, ?_, ?_, ?_⟩
    · show kv.2.count = _
      rw [hkv2, fc, hz1, Nat.zero_add]
    · show kv.2.posCount = _
      rw [hkv2, fp, hz4, Nat.zero_add]
    · show kv.2.negCount = _
      rw [hkv2, fn, hz5, Nat.zero_add]
    · show kv.2.neuCount = _
      rw [hkv2, fu, hz6, Nat.zero_add]
    · show (if 0 < kv.2.count then kv.2.scoreSum / (kv.2.count : ℚ) else 0) = _
      rw [hkv2, fc, fs, hz1, hz3, Nat.zero_add, zero_add]
    · show kv.2.reviewIds.length = _
      rw [hkv2, fr, hz2]
      exact length_foldl_setAdd_nil _
    · show kv.2.uniqueTriggers.length = _
      rw [hkv2, ft, hz7]
      exact length_foldl_setAdd_nil _

theorem statConfidence_mem_unit (s : AspectStats) :
    0 ≤ statConfidence s ∧ statConfidence s ≤ 1 := by
  have hL : (0 : ℝ) < Real.logb 2 50 := Real.logb_pos (by norm_num) (by norm_num)
  have hcov0 : 0 ≤ min 1 (Real.logb 2 ((s.reviewCount : ℝ) + 1) / Real.logb 2 50) := by
    refine le_min (by norm_num) ?_
    refine div_nonneg ?_ (le_of_lt hL)
    refine Real.logb_nonneg (by norm_num) ?_
    have : (0 : ℝ) ≤ (s.reviewCount : ℝ) := by positivity
    linarith
  have hcov1 : min 1 (Real.logb 2 ((s.reviewCount : ℝ) + 1) / Real.logb 2 50) ≤ 1 :=
    min_le_left _ _
  have hdiv0 : 0 ≤ min 1 ((s.triggerCount : ℝ) / 3) := by
    refine le_min (by norm_num) (by positivity)
  have hdiv1 : min 1 ((s.triggerCount : ℝ) / 3) ≤ 1 := min_le_left _ _
  unfold statConfidence toFixed2
  set x := min 1 (Real.logb 2 ((s.reviewCount : ℝ) + 1) / Real.logb 2 50) * (7/10) +
    min 1 ((s.triggerCount : ℝ) / 3) * (3/10) with hx
  have hx0 : 0 ≤ x := by
    rw [hx]
    nlinarith
  have hx1 : x ≤ 1 := by
    rw [hx]
    nlinarith
  have habs := abs_sub_round (100 * x)
  rw [abs_le] at habs
  have hr0 : (0 : ℤ) ≤ round (100 * x) := by
    by_contra hneg
    push_neg at hneg
    have hle : round (100 * x) + 1 ≤ 0 := Int.lt_iff_add_one_le.mp hneg
    have : (round (100 * x) : ℝ) ≤ -1 := by
      have h2 : ((round (100 * x) + 1 : ℤ) : ℝ) ≤ ((0 : ℤ) : ℝ) := by exact_mod_cast hle
      push_cast at h2
      linarith
    nlinarith [habs.1, habs.2]
  have hr100 : round (100 * x) ≤ (100 : ℤ) := by
    by_contra hgt
    push_neg at hgt
    have : (101 : ℝ) ≤ (round (100 * x) : ℝ) := by exact_mod_cast Int.lt_iff_add_one_le.mp hgt
    nlinarith [habs.1, habs.2]
  constructor
  · have : (0 : ℝ) ≤ (round (100 * x) : ℝ) := by exact_mod_cast hr0
    linarith [this]
  · have : (round (100 * x) : ℝ) ≤ 100 := by exact_mod_cast hr100
    linarith [this]

/-- **C2 (amended).** For every aspect statistic of a run: `count` is the
number of matched segments of that aspect; `net_sentiment` is the
arithmetic mean of their sentiment scores (0 when there are none, with no
division by zero); `reviewCount` and `triggerCount` are the numbers of
distinct contributing review ids and distinct trigger keywords; and the
stored confidence is the blend
`0.7 * min(1, log2(reviewCount+1)/log2 50) + 0.3 * min(1, triggers/3)`
ROUNDED TO TWO DECIMAL PLACES (`parseFloat(confidence.toFixed(2))`), a
value in [0, 1].  (The claim's exact-equality with the unrounded blend is
false; see the counterexample.) -/
theorem aspectStats_net_and_confidence (polarity : List Char → Option ℚ)
    (reviews : List ReviewInput) (taxonomy : List AspectDefinition) :
    ∀ s ∈ (performLocalAnalysis polarity reviews taxonomy).2,
      s.count = (aspectPairs polarity taxonomy reviews s.name).length ∧
      s.net_sentiment = (if 0 < s.count then
        ((aspectPairs polarity taxonomy reviews s.name).map
          (fun p => p.2.sentiment_score)).sum / (s.count : ℚ)
        else 0) ∧
      s.reviewCount =
        ((aspectPairs polarity taxonomy reviews s.name).map Prod.fst).dedup.length ∧
      s.triggerCount = ((aspectPairs polarity taxonomy reviews s.name).map
        (fun p => p.2.trigger_word)).dedup.length ∧
      statConfidence s =
        toFixed2 (min 1 (Real.logb 2 ((s.reviewCount : ℝ) + 1) / Real.logb 2 50) * (7/10) +
          min 1 ((s.triggerCount : ℝ) / 3) * (3/10)) ∧
      0 ≤ statConfidence s ∧ statConfidence s ≤ 1 := by
  intro s hs
  obtain ⟨hc, -, -, -, hnet, hrc, htc⟩ := mem_stats_fields polarity reviews taxonomy s hs
  refine ⟨hc, ?_, hrc, htc, rfl, statConfidence_mem_unit s⟩
  rw [hnet, hc]

/-- The one-review, one-aspect run of the C2 counterexample and witness. -/
def c2Reviews : List ReviewInput := [⟨"r1", "battery lasts long".data⟩]

/-- Its taxonomy. -/
def c2Taxonomy : List AspectDefinition := [⟨"Power", "", ["battery".data]⟩]

/-- The single aspect statistic the run produces. -/
def c2Stat : AspectStats := ⟨"Power", ["battery".data], 1, 1, 0, 0, 1, 0, 1⟩

theorem logb2_50_bounds : (28 : ℝ)/5 < Real.logb 2 50 ∧ Real.logb 2 50 < 6 := by
  constructor
  · have := logb2_gt (q := 50) (a := 28) (b := 5) (by norm_num) (by norm_num) (by norm_num)
    simpa using this
  · have := logb2_lt (q := 50) (a := 6) (b := 1) (by norm_num) (by norm_num) (by norm_num)
    simpa using this

/-- **C2 counterexample.** On a concrete run with one matching review and
one trigger, the stored confidence is the two-decimal rounding 0.22 and
is NOT equal to the exact blend `0.7/log2 50 + 0.1` the claim asserts. -/
theorem statConfidence_not_exact_blend_cex :
    (performLocalAnalysis (fun _ => some 0) c2Reviews c2Taxonomy).2 = [c2Stat] ∧
    statConfidence c2Stat ≠
      min 1 (Real.logb 2 ((c2Stat.reviewCount : ℝ) + 1) / Real.logb 2 50) * (7/10) +
      min 1 ((c2Stat.triggerCount : ℝ) / 3) * (3/10) := by
  constructor
  · with_unfolding_all decide
  · obtain ⟨hL5, hL6⟩ := logb2_50_bounds
    have hLpos : (0 : ℝ) < Real.logb 2 50 := by linarith
    have hrc : ((c2Stat.reviewCount : ℝ) + 1) = 2 := by norm_num [c2Stat]
    have htc : ((c2Stat.triggerCount : ℝ)) = 1 := by norm_num [c2Stat]
    rw [show statConfidence c2Stat =
      toFixed2 (min 1 (Real.logb 2 ((c2Stat.reviewCount : ℝ) + 1) / Real.logb 2 50) * (7/10) +
        min 1 ((c2Stat.triggerCount : ℝ) / 3) * (3/10)) from rfl]
    rw [hrc, htc]
    rw [Real.logb_self_eq_one (by norm_num)]
    have hmin1 : min 1 (1 / Real.logb 2 50) = 1 / Real.logb 2 50 := by
      refine min_eq_right ?_
      rw [div_le_one hLpos]
      linarith
    have hmin2 : min (1 : ℝ) (1 / 3) = 1 / 3 := by norm_num
    rw [hmin1, hmin2]
    set L := Real.logb 2 50 with hLdef
    set B := 1 / L * (7/10) + 1/3 * (3/10) with hB
    have hBval : 100 * B = 70 / L + 10 := by
      rw [hB]
      field_simp
      ring
    have h70lo : (23 : ℝ)/2 < 70 / L := by
      have h1 : 70 / 6 < 70 / L := div_lt_div_of_pos_left (by norm_num) hLpos hL6
      linarith
    have h70hi : 70 / L < (25 : ℝ)/2 := by
      have h1 : 70 / L < 70 / ((28 : ℝ)/5) := div_lt_div_of_pos_left (by norm_num)
        (by norm_num) hL5
      have h2 : (70 : ℝ) / ((28 : ℝ)/5) = 25/2 := by norm_num
      linarith
    have hround : round (100 * B) = 22 := by
      rw [round_eq, hBval]
      refine Int.floor_eq_iff.mpr ⟨?_, ?_⟩ <;> push_cast <;> linarith
    intro heq
    unfold toFixed2 at heq
    rw [hround] at heq
    have hB2239 : B = 22/100 := by
      have : ((22 : ℤ) : ℝ) / 100 = B := heq
      push_cast at this
      linarith
    have hLval : L = 35/6 := by
      have h1 : 70 / L = 12 := by
        have := hBval
        rw [hB2239] at this
        norm_num at this
        linarith
      have h2 : L ≠ 0 := ne_of_gt hLpos
      field_simp at h1
      linarith
    have hlog : Real.log 50 / Real.log 2 = 35/6 := by
      rw [← Real.logb, ← hLdef]
      exact hLval
    have hlog2pos : (0 : ℝ) < Real.log 2 := Real.log_pos (by norm_num)
    have hcross : 6 * Real.log 50 = 35 * Real.log 2 := by
      have h2 : Real.log 2 ≠ 0 := ne_of_gt hlog2pos
      field_simp at hlog
      linarith
    have hlogeq : Real.log ((50 : ℝ) ^ (6 : ℕ)) = Real.log ((2 : ℝ) ^ (35 : ℕ)) := by
      rw [Real.log_pow, Real.log_pow]
      push_cast
      linarith
    have hpoweq : ((50 : ℝ) ^ (6 : ℕ)) = ((2 : ℝ) ^ (35 : ℕ)) := by
      have h1 : (0 : ℝ) < 50 ^ (6 : ℕ) := by positivity
      have h2 : (0 : ℝ) < 2 ^ (35 : ℕ) := by positivity
      have := congrArg Real.exp hlogeq
      rwa [Real.exp_log h1, Real.exp_log h2] at this
    norm_num at hpoweq

/-- Witness for C2 (amended) at the concrete one-review run. -/
theorem aspectStats_net_and_confidence_witness :
    c2Stat.count = (aspectPairs (fun _ => some 0) c2Taxonomy c2Reviews c2Stat.name).length ∧
    c2Stat.net_sentiment = (if 0 < c2Stat.count then
      ((aspectPairs (fun _ => some 0) c2Taxonomy c2Reviews c2Stat.name).map
        (fun p => p.2.sentiment_score)).sum / (c2Stat.count : ℚ)
      else 0) ∧
    c2Stat.reviewCount = ((aspectPairs (fun _ => some 0) c2Taxonomy c2Reviews
      c2Stat.name).map Prod.fst).dedup.length ∧
    c2Stat.triggerCount = ((aspectPairs (fun _ => some 0) c2Taxonomy c2Reviews
      c2Stat.name).map (fun p => p.2.trigger_word)).dedup.length ∧
    statConfidence c2Stat =
      toFixed2 (min 1 (Real.logb 2 ((c2Stat.reviewCount : ℝ) + 1) / Real.logb 2 50) * (7/10) +
        min 1 ((c2Stat.triggerCount : ℝ) / 3) * (3/10)) ∧
    0 ≤ statConfidence c2Stat ∧ statConfidence c2Stat ≤ 1 :=
  aspectStats_net_and_confidence (fun _ => some 0) c2Reviews c2Taxonomy c2Stat
    (by with_unfolding_all decide)

/-- **C10.** Every aspect of the taxonomy receives a statistics entry,
even with zero matching segments; an entry with `count = 0` has all
sentiment counters, distinct-review and distinct-trigger counts zero,
`net_sentiment = 0` (no division by zero), and confidence 0. -/
theorem performLocalAnalysis_stats_complete (polarity : List Char → Option ℚ)
    (reviews : List ReviewInput) (taxonomy : List AspectDefinition) :
    (∀ a ∈ taxonomy,
      ∃ s ∈ (performLocalAnalysis polarity reviews taxonomy).2, s.name = a.name) ∧
    (∀ s ∈ (performLocalAnalysis polarity reviews taxonomy).2, s.count = 0 →
      s.positive = 0 ∧ s.negative = 0 ∧ s.neutral = 0 ∧ s.reviewCount = 0 ∧
      s.triggerCount = 0 ∧ s.net_sentiment = 0 ∧ statConfidence s = 0) := by
  constructor
  · intro a ha
    have hkeys : ((reviews.foldl (processReview polarity taxonomy)
        ([], initAggs taxonomy)).2).map Prod.fst = (initAggs taxonomy).map Prod.fst := by
      rw [aggs_eq_foldl_pairs polarity taxonomy reviews ([], initAggs taxonomy)]
      exact keys_foldl_applyPairs _ _
    have hmem : a.name ∈ ((reviews.foldl (processReview polarity taxonomy)
        ([], initAggs taxonomy)).2).map Prod.fst := by
      rw [hkeys, initAggs_keys_mem]
      exact List.mem_map_of_mem AspectDefinition.name ha
    obtain ⟨kv, hkv, hfst⟩ := List.mem_map.mp hmem
    refine ⟨mkStat kv, ?_, hfst⟩
    simp only [performLocalAnalysis]
    rw [mem_sortByKeyDesc]
    exact List.mem_map_of_mem mkStat hkv
  · intro s hs h0
    obtain ⟨hc, hpos, hneg, hneu, hnet, hrc, htc⟩ :=
      mem_stats_fields polarity reviews taxonomy s hs
    rw [h0] at hc
    have hap : aspectPairs polarity taxonomy reviews s.name = [] :=
      List.length_eq_zero.mp hc.symm
    rw [hap] at hpos hneg hneu hnet hrc htc
    simp only [List.filter_nil, List.length_nil, List.map_nil, List.dedup_nil,
      lt_irrefl, if_false] at hpos hneg hneu hnet hrc htc
    refine ⟨hpos, hneg, hneu, hrc, htc, hnet, ?_⟩
    unfold statConfidence toFixed2
    rw [hrc, htc]
    norm_num [Real.logb_one, round_zero]

/-- The taxonomy of the C10 witness run. -/
def c10Taxonomy : List AspectDefinition := [⟨"Power", "", ["battery".data]⟩]

/-- The zero-count statistics entry the C10 witness run produces. -/
def c10Stat : AspectStats := ⟨"Power", ["battery".data], 0, 0, 0, 0, 0, 0, 0⟩

/-- Witness for C10: with no reviews at all, the single taxonomy aspect
still gets an entry, and that zero-count entry has all fields zero. -/
theorem performLocalAnalysis_stats_complete_witness :
    (∃ s ∈ (performLocalAnalysis (fun _ => some 0) [] c10Taxonomy).2, s.name = "Power") ∧
    (c10Stat.positive = 0 ∧ c10Stat.negative = 0 ∧ c10Stat.neutral = 0 ∧
      c10Stat.reviewCount = 0 ∧ c10Stat.triggerCount = 0 ∧
      c10Stat.net_sentiment = 0 ∧ statConfidence c10Stat = 0) :=
  ⟨(performLocalAnalysis_stats_complete (fun _ => some 0) [] c10Taxonomy).1
      ⟨"Power", "", ["battery".data]⟩ (by decide),
    (performLocalAnalysis_stats_complete (fun _ => some 0) [] c10Taxonomy).2
      c10Stat (by with_unfolding_all decide) rfl⟩

theorem final_entry_count (polarity : List Char → Option ℚ) (reviews : List ReviewInput)
    (taxonomy : List AspectDefinition) :
    ∀ kv ∈ (reviews.foldl (processReview polarity taxonomy) ([], initAggs taxonomy)).2,
      kv.2.count = (aspectPairs polarity taxonomy reviews kv.1).length := by
  intro kv hkv
  have hpairs := aggs_eq_foldl_pairs polarity taxonomy reviews ([], initAggs taxonomy)
  have hkeys : ((reviews.foldl (processReview polarity taxonomy)
      ([], initAggs taxonomy)).2).map Prod.fst = (initAggs taxonomy).map Prod.fst := by
    rw [hpairs]
    exact keys_foldl_applyPairs _ _
  have hnd : (((reviews.foldl (processReview polarity taxonomy)
      ([], initAggs taxonomy)).2).map Prod.fst).Nodup := by
    rw [hkeys]
    exact initAggs_keys_nodup taxonomy
  have hlk := lookup_of_mem_nodup _ kv.1 kv.2 hnd (by simpa using hkv)
  rw [hpairs, lookup_foldl_applyPairs] at hlk
  cases h0 : (initAggs taxonomy).lookup kv.1 with
  | none =>
    rw [h0] at hlk
    exact absurd hlk (by simp)
  | some g0 =>
    rw [h0] at hlk
    have hlk' : some ((aspectPairs polarity taxonomy reviews kv.1).foldl
        (fun g' p => tallySeg p.1 p.2 g') g0) = some kv.2 := hlk
    have hkv2 : kv.2 = (aspectPairs polarity taxonomy reviews kv.1).foldl
        (fun g' p => tallySeg p.1 p.2 g') g0 := (Option.some.inj hlk').symm
    have hz := (initAggs_lookup_zero taxonomy kv.1 g0 h0).1
    have hf := (tally_foldl_fields (aspectPairs polarity taxonomy reviews kv.1) g0).1
    rw [hkv2, hf, hz, Nat.zero_add]

theorem length_filter_or_disjoint (k : String) (ks : List String) (hk : k ∉ ks)
    (l : List (String × AspectSegment)) :
    (l.filter (fun p => p.2.aspect_category = k ∨ p.2.aspect_category ∈ ks)).length =
      (l.filter (fun p => p.2.aspect_category = k)).length +
      (l.filter (fun p => p.2.aspect_category ∈ ks)).length := by
  induction l with
  | nil => rfl
  | cons p rest ih =>
    by_cases h1 : p.2.aspect_category = k
    · have h2 : ¬ p.2.aspect_category ∈ ks := fun hc => hk (h1 ▸ hc)
      simp only [List.filter_cons, h1]
      rw [if_pos (by simp), if_pos (by simp), if_neg (by simpa using hk)]
      simp only [List.length_cons]
      rw [ih]
      omega
    · by_cases h2 : p.2.aspect_category ∈ ks
      · simp only [List.filter_cons]
        rw [if_pos (by simp [h2]), if_neg (by simpa using h1), if_pos (by simpa using h2)]
        simp only [List.length_cons]
        rw [ih]
        omega
      · simp only [List.filter_cons]
        rw [if_neg (by simp [h1, h2]), if_neg (by simpa using h1),
          if_neg (by simpa using h2)]
        exact ih

theorem sum_bucket_lengths (l : List (String × AspectSegment)) :
    ∀ keys : List String, keys.Nodup →
      (keys.map (fun k => (l.filter (fun p => p.2.aspect_category = k)).length)).sum =
        (l.filter (fun p => p.2.aspect_category ∈ keys)).length := by
  intro keys
  induction keys with
  | nil =>
    intro _
    simp
  | cons k ks ih =>
    intro hnd
    rw [List.nodup_cons] at hnd
    obtain ⟨hk, hnd'⟩ := hnd
    rw [List.map_cons, List.sum_cons, ih hnd']
    have hcongr : l.filter (fun p => p.2.aspect_category ∈ k :: ks) =
        l.filter (fun p => p.2.aspect_category = k ∨ p.2.aspect_category ∈ ks) := by
      apply List.filter_congr
      intro p hp
      simp [List.mem_cons]
    rw [hcongr, length_filter_or_disjoint k ks hk l]

theorem matchedPairs_cat_mem (polarity : List Char → Option ℚ)
    (taxonomy : List AspectDefinition) (reviews : List ReviewInput) :
    ∀ p ∈ matchedPairs polarity taxonomy reviews,
      p.2.aspect_category ∈ taxonomy.map AspectDefinition.name := by
  intro p hp
  unfold matchedPairs at hp
  rw [List.mem_flatten] at hp
  obtain ⟨l, hl, hpl⟩ := hp
  rw [List.mem_map] at hl
  obtain ⟨r, hr, rfl⟩ := hl
  rw [List.mem_map] at hpl
  obtain ⟨seg, hseg, rfl⟩ := hpl
  unfold segsOfReview at hseg
  rw [List.mem_filterMap] at hseg
  obtain ⟨cl, hcl, hcs⟩ := hseg
  unfold clauseSegment at hcs
  cases hd : detectAspect cl taxonomy with
  | none =>
    rw [hd] at hcs
    exact absurd hcs (by simp)
  | some m =>
    rw [hd] at hcs
    have hcs' : some (⟨cl, m.1, (analyzeSentiment polarity cl).1,
        (analyzeSentiment polarity cl).2, "Keyword Match", m.2⟩ : AspectSegment) =
        some seg := hcs
    have hseg2 := Option.some.inj hcs'
    rcases foldl_outer_sound (cl.map Char.toLower) taxonomy none m hd with
      h' | ⟨a, ha, hn, -, -⟩
    · exact absurd h' (by simp)
    · show seg.aspect_category ∈ _
      rw [← hseg2]
      show m.1 ∈ _
      rw [hn]
      exact List.mem_map_of_mem AspectDefinition.name ha

theorem analyzed_eq (polarity : List Char → Option ℚ) (taxonomy : List AspectDefinition)
    (reviews : List ReviewInput) :
    ∀ st : List AnalyzedReview × AggMap,
      (reviews.foldl (processReview polarity taxonomy) st).1 =
        st.1 ++ (reviews.map (fun r =>
          (⟨r.id, r.text, segsOfReview polarity taxonomy r.text⟩ : AnalyzedReview))).filter
          (fun ar => !ar.segments.isEmpty) := by
  induction reviews with
  | nil =>
    intro st
    simp
  | cons r rest ih =>
    intro st
    rw [List.foldl_cons, ih]
    rw [List.map_cons, List.filter_cons]
    by_cases h : segsOfReview polarity taxonomy r.text = []
    · rw [if_neg (by simp [h])]
      show (if segsOfReview polarity taxonomy r.text = [] then st.1
        else st.1 ++ [⟨r.id, r.text, segsOfReview polarity taxonomy r.text⟩]) ++ _ = _
      rw [if_pos h]
    · rw [if_pos (by simp [h])]
      show (if segsOfReview polarity taxonomy r.text = [] then st.1
        else st.1 ++ [⟨r.id, r.text, segsOfReview polarity taxonomy r.text⟩]) ++ _ = _
      rw [if_neg h, List.append_assoc]
      rfl

theorem sum_seg_lengths_filter (l : List AnalyzedReview) :
    ((l.filter (fun ar => !ar.segments.isEmpty)).map
      (fun ar => ar.segments.length)).sum =
      (l.map (fun ar => ar.segments.length)).sum := by
  induction l with
  | nil => rfl
  | cons ar rest ih =>
    rw [List.filter_cons]
    by_cases h : ar.segments.isEmpty
    · rw [if_neg (by simp [h])]
      rw [List.map_cons, List.sum_cons, ih]
      have hz : ar.segments.length = 0 := by
        rw [List.isEmpty_iff] at h
        rw [h]
        rfl
      omega
    · rw [if_pos (by simp [h])]
      rw [List.map_cons, List.map_cons, List.sum_cons, List.sum_cons, ih]

theorem matchedPairs_length (polarity : List Char → Option ℚ)
    (taxonomy : List AspectDefinition) (reviews : List ReviewInput) :
    (matchedPairs polarity taxonomy reviews).length =
      (reviews.map (fun r => (segsOfReview polarity taxonomy r.text).length)).sum := by
  unfold matchedPairs
  rw [List.length_flatten]
  rw [List.map_map]
  congr 1
  apply List.map_congr_left
  intro r hr
  exact List.length_map _ _

/-- **C7.** Conservation: the per-aspect mention counts over all statistics
entries sum to the total number of matched segments across the analyzed
reviews — every matched segment is tallied under exactly one aspect and
nothing else is tallied. -/
theorem performLocalAnalysis_conservation (polarity : List Char → Option ℚ)
    (reviews : List ReviewInput) (taxonomy : List AspectDefinition) :
    (((performLocalAnalysis polarity reviews taxonomy).2).map AspectStats.count).sum =
      (((performLocalAnalysis polarity reviews taxonomy).1).map
        (fun ar => ar.segments.length)).sum := by
  have hcover : (matchedPairs polarity taxonomy reviews).filter
      (fun p => p.2.aspect_category ∈ (initAggs taxonomy).map Prod.fst) =
      matchedPairs polarity taxonomy reviews := by
    rw [List.filter_eq_self]
    intro p hp
    simp only [decide_eq_true_eq]
    rw [initAggs_keys_mem]
    exact matchedPairs_cat_mem polarity taxonomy reviews p hp
  have hkeys : ((reviews.foldl (processReview polarity taxonomy)
      ([], initAggs taxonomy)).2).map Prod.fst = (initAggs taxonomy).map Prod.fst := by
    rw [aggs_eq_foldl_pairs polarity taxonomy reviews ([], initAggs taxonomy)]
    exact keys_foldl_applyPairs _ _
  have hpoint : ∀ kv ∈ (reviews.foldl (processReview polarity taxonomy)
      ([], initAggs taxonomy)).2,
      (AspectStats.count ∘ mkStat) kv = (aspectPairs polarity taxonomy reviews kv.1).length :=
    fun kv hkv => final_entry_count polarity reviews taxonomy kv hkv
  have hL : (((performLocalAnalysis polarity reviews taxonomy).2).map AspectStats.count).sum
      = (matchedPairs polarity taxonomy reviews).length := by
    rw [show (performLocalAnalysis polarity reviews taxonomy).2 =
      sortByKeyDesc AspectStats.count
        (((reviews.foldl (processReview polarity taxonomy)
          ([], initAggs taxonomy)).2).map mkStat) from rfl]
    rw [((sortByKeyDesc_perm AspectStats.count _).map AspectStats.count).sum_eq]
    rw [List.map_map]
    rw [List.map_congr_left hpoint]
    rw [show (fun kv : String × AggEntry =>
      (aspectPairs polarity taxonomy reviews kv.1).length) =
      (fun k => (aspectPairs polarity taxonomy reviews k).length) ∘ Prod.fst from rfl]
    rw [← List.map_map]
    rw [hkeys]
    simp only [aspectPairs]
    rw [sum_bucket_lengths _ _ (initAggs_keys_nodup taxonomy)]
    rw [hcover]
  have hR : (((performLocalAnalysis polarity reviews taxonomy).1).map
      (fun ar => ar.segments.length)).sum = (matchedPairs polarity taxonomy reviews).length := by
    rw [show (performLocalAnalysis polarity reviews taxonomy).1 =
      (reviews.foldl (processReview polarity taxonomy) ([], initAggs taxonomy)).1 from rfl]
    rw [analyzed_eq polarity taxonomy reviews ([], initAggs taxonomy)]
    rw [List.nil_append]
    rw [sum_seg_lengths_filter]
    rw [List.map_map]
    rw [matchedPairs_length]
    rfl
  rw [hL, hR]

/-- **C8 (amended).** The low-entropy warning is emitted iff the list holds
MORE THAN 5 WordStats AND the top-3 score mass exceeds 0.6 of the total;
the claim's pure concentration iff omits the `topWords.length > 5` guard
(see the counterexample). -/
theorem checkDatasetIntegrity_entropy_iff (reviews : List ReviewInput)
    (topWords : List WordStat) :
    entropyWarning ∈ checkDatasetIntegrity reviews topWords ↔
      5 < topWords.length ∧
      (3/5 : ℝ) < ((topWords.take 3).map WordStat.score).sum /
        ((topWords.map WordStat.score).sum) := by
  unfold checkDatasetIntegrity
  have hne : entropyWarning ≠ repetitionWarning := by decide
  rw [List.mem_append]
  constructor
  · rintro (h1 | h2)
    · split_ifs at h1 with hc
      · exact absurd (List.mem_singleton.mp h1) hne
      · exact absurd h1 (List.not_mem_nil _)
    · split_ifs at h2 with hc
      · exact hc
      · exact absurd h2 (List.not_mem_nil _)
  · intro hc
    right
    rw [if_pos hc]
    exact List.mem_singleton.mpr rfl

/-- The three retained WordStats of the C8 counterexample. -/
def c8TopWords : List WordStat :=
  [⟨"aaa".data, 1, 1⟩, ⟨"bbb".data, 1, 1⟩, ⟨"ccc".data, 1, 1⟩]

/-- Its review list (one review, so the repetition rule stays silent). -/
def c8Reviews : List ReviewInput := [⟨"r1", "hello".data⟩]

/-- **C8 counterexample.** With only 3 retained WordStats the top-3 mass
fraction is 1 > 0.6, yet the integrity checker emits NO warning: the
entropy rule is guarded by `topWords.length > 5`, which the claim omits. -/
theorem checkDatasetIntegrity_no_guard_cex :
    (3/5 : ℝ) < ((c8TopWords.take 3).map WordStat.score).sum /
      ((c8TopWords.map WordStat.score).sum) ∧
    checkDatasetIntegrity c8Reviews c8TopWords = [] := by
  constructor
  · show (3/5 : ℝ) < ((1 : ℝ) + (1 + (1 + 0))) / ((1 : ℝ) + (1 + (1 + 0)))
    norm_num
  · unfold checkDatasetIntegrity
    rw [if_neg, if_neg]
    · rfl
    · rintro ⟨h5, -⟩
      have : c8TopWords.length = 3 := by decide
      rw [this] at h5
      exact absurd h5 (by norm_num)
    · rintro ⟨-, h⟩
      have h1 : ((c8Reviews.map (fun r => jsTrim r.text)).dedup.length) = 1 := by decide
      have h2 : (c8Reviews.length) = 1 := by decide
      rw [h1, h2] at h
      norm_num at h

end GoogleStudio
